import Mathlib

/-!
Verification of the skeledom markup tokenizer / parser / tree builder.

The JavaScript sources are embedded shallowly:
* `Parser`  models src/lib/Parser.js: an open-tag-name stack plus the
  implicit-closing and void-element tables; it consumes lexical events and
  appends semantic events (`HEvent`) for the tree builder.
* `Handler` models src/lib/Handler.js: the node arena (a pointer store),
  ancestry stack and document-order linking.
* `Lexer`   models the unnamed tokenizer source file: a finite state machine
  over character codes, with the redispatch idiom (`this.state(char)` after a
  state reassignment) rendered as fuelled recursion.
* `posterity` / `descendants` model the two traversal generators of the
  unnamed traversal source file.

Stacks that the JavaScript keeps in array order (push/pop at the end,
`at(-1)` reads the top) are modelled as lists with the top at the head.
The mutable node graph is modelled as a `Store` (index to node map plus a
size counter); every JavaScript pointer becomes a `Nat` index.
-/

/-- ASCII model of the JavaScript `String.prototype.toLowerCase` on a
character: uppercase ASCII letters shift by 32, all else is unchanged. -/
def lowerChar (c : Char) : Char :=
  if c.isUpper then Char.ofNat (c.toNat + 32) else c

/-- ASCII model of `String.prototype.toLowerCase`. -/
def jsToLower (s : String) : String :=
  (s.data.map lowerChar).asString

/-- Whitespace as trimmed by `String.prototype.trim` (ASCII fragment). -/
def jsWsChar (c : Char) : Bool :=
  c = ' ' || c = '\t' || c = '\n' || c = '\r' || c = '\x0b' || c = '\x0c'

/-- Model of `String.prototype.trim`. -/
def jsTrim (s : String) : String :=
  (((s.data.dropWhile jsWsChar).reverse.dropWhile jsWsChar).reverse).asString

/-- Model of `String.prototype.trimEnd`. -/
def jsTrimEnd (s : String) : String :=
  ((s.data.reverse.dropWhile jsWsChar).reverse).asString

/-- Attribute values in the finished tree: plain strings, or ordered token
sets for the multi-valued attribute allow-list (Handler.js `Group`). -/
inductive AttrVal where
  | str : String → AttrVal
  | tokens : List String → AttrVal
deriving Repr, DecidableEq

/-- Semantic events flowing from the Parser to the Handler
(the `Handler` typedef in Parser.js). -/
inductive HEvent where
  | startTag : String → List (String × String) → Bool → HEvent
  | endTag : Bool → HEvent
  | text : String → HEvent
  | comment : String → HEvent
  | cdata : String → HEvent
  | declaration : String → HEvent
  | directive : String → HEvent
deriving Repr, DecidableEq

/-! ## Parser rule tables (Parser.js) -/

def pTag : List String := ["p"]

def descriptionTags : List String := ["dd", "dt"]

def explainationTags : List String := ["rp", "rt"]

def formTags : List String :=
  ["button", "datalist", "input", "optgroup", "option", "select", "textarea"]

def tableSectionTags : List String := ["thead", "tbody"]

def implicitClose : List (String × List String) := [
  ("body", ["head", "link", "script"]),
  ("hr", pTag),
  ("header", pTag), ("footer", pTag), ("nav", pTag), ("div", pTag),
  ("main", pTag), ("article", pTag), ("section", pTag), ("aside", pTag),
  ("p", pTag), ("h1", pTag), ("h2", pTag), ("h3", pTag), ("h4", pTag),
  ("h5", pTag), ("h6", pTag),
  ("address", pTag), ("blockquote", pTag), ("pre", pTag), ("details", pTag),
  ("dl", pTag), ("dt", descriptionTags), ("dd", descriptionTags),
  ("rt", explainationTags), ("rp", explainationTags),
  ("form", pTag), ("button", formTags), ("datalist", formTags),
  ("fieldset", pTag), ("input", formTags), ("output", formTags),
  ("optgroup", ["optgroup", "option"]), ("option", ["option"]),
  ("select", formTags), ("textarea", formTags),
  ("table", pTag), ("tbody", tableSectionTags), ("tfoot", tableSectionTags),
  ("th", ["th"]), ("tr", ["tr", "th", "td"]), ("td", ["thead", "th", "td"]),
  ("ol", pTag), ("ul", pTag), ("li", ["li"]),
  ("figure", pTag), ("figcaption", pTag)]

/-- `implicitClose.get(name)`, with a missing entry modelled by `[]`
(the JavaScript while loop is skipped either way). -/
def implicitCloseGet (name : String) : List String :=
  ((implicitClose.find? (fun kv => kv.1 == name)).map Prod.snd).getD []

def emptyElements : List String :=
  ["area", "base", "basefont", "br", "col", "command", "embed", "frame",
   "hr", "img", "input", "isindex", "keygen", "link", "meta", "param",
   "source", "track", "wbr"]

/-! ## Parser state and event handlers (Parser.js) -/

structure ParserState where
  buffer : List Char
  stack : List String
  text : List String
  tagName : Option String
  attributeName : Option String
  attributeValue : List String
  attributes : List (String × String)
  events : List HEvent
deriving Repr

namespace Parser

def init (buffer : List Char) : ParserState :=
  { buffer := buffer, stack := [], text := [], tagName := none,
    attributeName := none, attributeValue := [], attributes := [],
    events := [] }

/-- `this.buffer.slice(start, end)`. -/
def slice (ps : ParserState) (s e : Nat) : String :=
  ((ps.buffer.drop s).take (e - s)).asString

def onText (ps : ParserState) (s e : Nat) : ParserState :=
  { ps with text := ps.text ++ [slice ps s e] }

def onTextEntity (dec : String → Option String) (ps : ParserState) (s e : Nat) :
    ParserState :=
  let entity := slice ps s e
  { ps with text := ps.text ++ [(dec entity).getD ("&" ++ entity)] }

def onTextEnd (ps : ParserState) : ParserState :=
  { ps with events := ps.events ++ [HEvent.text (jsTrim (String.join ps.text))],
            text := [] }

def onStartTagName (ps : ParserState) (s e : Nat) : ParserState :=
  { ps with tagName := some (jsToLower (slice ps s e)) }

def onAttributeName (ps : ParserState) (s e : Nat) : ParserState :=
  { ps with attributeName := some (jsToLower (slice ps s e)) }

def onAttributeValue (ps : ParserState) (s e : Nat) : ParserState :=
  { ps with attributeValue := ps.attributeValue ++ [slice ps s e] }

def onAttributeEntity (dec : String → Option String) (ps : ParserState)
    (s e : Nat) : ParserState :=
  let entity := slice ps s e
  { ps with attributeValue := ps.attributeValue ++ [(dec entity).getD ("&" ++ entity)] }

/-- `this.attributes[name] = value` on a plain object: insertion order is
kept, an existing key is overwritten in place. -/
def upsert (m : List (String × String)) (k v : String) : List (String × String) :=
  if m.any (fun kv => kv.1 == k) then
    m.map (fun kv => if kv.1 == k then (k, v) else kv)
  else m ++ [(k, v)]

def onAttributeEnd (ps : ParserState) : ParserState :=
  { ps with
    attributes := upsert ps.attributes (ps.attributeName.getD "null")
      (String.join ps.attributeValue),
    attributeName := none, attributeValue := [] }

/-- The while loop of `onStartTagClose`: while the stack top is in the
implicit-close set, emit an implicit end tag and pop. -/
def closeImplicitLoop (close : List String) :
    List String → List HEvent × List String
  | [] => ([], [])
  | top :: rest =>
    if close.contains top then
      let step := closeImplicitLoop close rest
      (HEvent.endTag false :: step.1, step.2)
    else ([], top :: rest)

def onStartTagClose (ps : ParserState) : ParserState :=
  let name := ps.tagName.getD ""
  let closed := closeImplicitLoop (implicitCloseGet name) ps.stack
  let selfClosing := emptyElements.contains name
  { ps with
    events := ps.events ++ closed.1 ++ [HEvent.startTag name ps.attributes selfClosing],
    stack := if selfClosing then closed.2 else name :: closed.2,
    tagName := none, attributes := [] }

/-- `this.stack.length - this.stack.lastIndexOf(name) - 1` on the top-first
stack view: the distance from the top of the nearest match, and the stack
length when the name is absent. -/
def distanceFromTop (name : String) : List String → Nat
  | [] => 0
  | top :: rest => if top == name then 0 else 1 + distanceFromTop name rest

/-- The do/while loop of `onEndTagName`: emits `endTag (distance = 0)` and
pops, decrementing distance, until the matched entry itself is popped. -/
def closeOut : Nat → ParserState → ParserState
  | 0, ps => { ps with events := ps.events ++ [HEvent.endTag true],
                       stack := ps.stack.drop 1 }
  | d + 1, ps => closeOut d { ps with events := ps.events ++ [HEvent.endTag false],
                                      stack := ps.stack.drop 1 }

def onEndTagName (ps : ParserState) (s e : Nat) : ParserState :=
  let name := slice ps s e
  if emptyElements.contains name then ps
  else
    let distance := distanceFromTop name ps.stack
    if distance = ps.stack.length then ps
    else closeOut distance ps

def onComment (ps : ParserState) (s e : Nat) : ParserState :=
  { ps with events := ps.events ++ [HEvent.comment (jsTrim (slice ps s e))] }

def onCDATA (ps : ParserState) (s e : Nat) : ParserState :=
  { ps with events := ps.events ++ [HEvent.cdata (jsTrim (slice ps s e))] }

def onDeclaration (ps : ParserState) (s e : Nat) : ParserState :=
  { ps with events := ps.events ++ [HEvent.declaration (jsTrimEnd (slice ps s e))] }

/-- `Parser.onEnd`: every remaining stack entry is closed as implicit,
then the handler builds the finished document. -/
def onEnd (ps : ParserState) : ParserState :=
  { ps with events := ps.events ++ List.replicate ps.stack.length (HEvent.endTag false),
            stack := [] }

end Parser

/-- Lexical events flowing from the Lexer to the Parser
(the `Parser` typedef in the tokenizer source). -/
inductive PEvent where
  | text : Nat → Nat → PEvent
  | textEntity : Nat → Nat → PEvent
  | textEnd : PEvent
  | startTagName : Nat → Nat → PEvent
  | attributeName : Nat → Nat → PEvent
  | attributeValue : Nat → Nat → PEvent
  | attributeEntity : Nat → Nat → PEvent
  | attributeEnd : PEvent
  | selfClosingTag : PEvent
  | startTagClose : PEvent
  | endTagName : Nat → Nat → PEvent
  | comment : Nat → Nat → PEvent
  | cdata : Nat → Nat → PEvent
  | declaration : Nat → Nat → PEvent
  | directive : Nat → Nat → PEvent
deriving Repr, DecidableEq

namespace Parser

/-- Dispatch of one lexical event on the Parser. The Parser class defines
no `onSelfClosingTag` and no `onDirective` method, so the optional calls
`this.parser.onSelfClosingTag?.()` and `this.parser.onDirective?.(...)`
from the Lexer are dropped silently. -/
def pstep (dec : String → Option String) (ps : ParserState) : PEvent → ParserState
  | .text s e => onText ps s e
  | .textEntity s e => onTextEntity dec ps s e
  | .textEnd => onTextEnd ps
  | .startTagName s e => onStartTagName ps s e
  | .attributeName s e => onAttributeName ps s e
  | .attributeValue s e => onAttributeValue ps s e
  | .attributeEntity s e => onAttributeEntity dec ps s e
  | .attributeEnd => onAttributeEnd ps
  | .selfClosingTag => ps
  | .startTagClose => onStartTagClose ps
  | .endTagName s e => onEndTagName ps s e
  | .comment s e => onComment ps s e
  | .cdata s e => onCDATA ps s e
  | .declaration s e => onDeclaration ps s e
  | .directive _ _ => ps

def run (dec : String → Option String) (buffer : List Char)
    (evs : List PEvent) : ParserState :=
  evs.foldl (pstep dec) (init buffer)

end Parser

/-! ## Tree builder (Handler.js) -/

/-- One node of the tree. Pointer fields of the JavaScript `Node` become
optional indexes into the store. `type` holds the `Element` / `Data`
discriminator strings. -/
structure DNode where
  type : String
  name : Option String := none
  value : String := ""
  attributes : List (String × AttrVal) := []
  parent : Option Nat := none
  previous : Option Nat := none
  next : Option Nat := none
  previousSibling : Option Nat := none
  nextSibling : Option Nat := none
  children : List Nat := []
  tail : Option Nat := none
deriving Repr, DecidableEq

/-- The node graph: a growable indexed store standing in for the garbage
collected object heap; every JavaScript object reference is an index. -/
structure Store where
  nodes : Nat → DNode
  size : Nat

def blankNode : DNode := { type := "" }

def Store.setN (st : Store) (i : Nat) (v : DNode) : Store :=
  { st with nodes := fun j => if j = i then v else st.nodes j }

def Store.push (st : Store) (v : DNode) : Store :=
  { nodes := fun j => if j = st.size then v else st.nodes j,
    size := st.size + 1 }

namespace Node

/-- `this.parent = parent`. -/
def linkParent (st : Store) (n p : Nat) : Store :=
  st.setN n { st.nodes n with parent := some p }

/-- `parent.children.push(this)`. -/
def linkChildPush (st : Store) (n p : Nat) : Store :=
  st.setN p { st.nodes p with children := (st.nodes p).children ++ [n] }

/-- `this.previousSibling = this.parent.children.at(-2)` (read after the
push, so the former last child). -/
def linkPrevSibling (st : Store) (n : Nat) (sib : Option Nat) : Store :=
  st.setN n { st.nodes n with previousSibling := sib }

/-- `(...)?.nextSibling = this`: only an existing former last child gets
its next-sibling pointer set. -/
def linkSibNext (st : Store) (n : Nat) : Option Nat → Store
  | some q => st.setN q { st.nodes q with nextSibling := some n }
  | none => st

/-- `this.previous = previous`. -/
def linkPrevious (st : Store) (n prev : Nat) : Store :=
  st.setN n { st.nodes n with previous := some prev }

/-- `previous.next = this`. -/
def linkNext (st : Store) (n prev : Nat) : Store :=
  st.setN prev { st.nodes prev with next := some n }

/-- `Node.prototype.link(parent, previous)` for the node at index `n`:
append to the parent child list, wire the sibling pointers from the former
last child, and wire the document-order pointer from the previously emitted
node. The statements run in source order against the current store. -/
def link (st : Store) (n p prev : Nat) : Store :=
  let st := linkParent st n p
  let st := linkChildPush st n p
  let sib := (st.nodes p).children.dropLast.getLast?
  let st := linkPrevSibling st n sib
  let st := linkSibNext st n sib
  let st := linkPrevious st n prev
  linkNext st n prev

end Node

/-- Multi-valued attributes membership checker (Handler.js `Group`; renamed
here because `Group` is taken by the mathematics library). -/
def GroupSet : List String :=
  ["class", "rel", "sandbox", "accept-charset", "headers", "sizes",
   "accesskey", "dropzone", "rev", "archive", "for"]

/-- Keep the first occurrence of each token: iteration order of a
JavaScript `Set` built from a list. -/
def dedupKeepFirst : List String → List String → List String
  | [], _ => []
  | x :: xs, seen =>
    if seen.contains x then dedupKeepFirst xs seen
    else x :: dedupKeepFirst xs (x :: seen)

/-- Split on whitespace runs; empty accumulated runs are dropped, matching
a split on the regex of one or more whitespace characters applied to a
trimmed string. -/
def wsWords : List Char → List Char → List String
  | [], [] => []
  | [], cur => [cur.reverse.asString]
  | c :: cs, cur =>
    if jsWsChar c then
      if cur.isEmpty then wsWords cs []
      else cur.reverse.asString :: wsWords cs []
    else wsWords cs (c :: cur)

/-- `new Set(value.trim().split(/\s+/))` as an ordered token list: an empty
trimmed string splits to the single empty token. -/
def splitTokens (v : String) : List String :=
  let t := jsTrim v
  dedupKeepFirst (if t.isEmpty then [""] else wsWords t.data []) []

structure HandlerState where
  store : Store
  ancestry : List Nat
  previous : Nat

namespace Handler

/-- `onReset`: a fresh synthetic document root at index 0 seeds the store,
the ancestry stack and the previous-node pointer. -/
def init : HandlerState :=
  let doc : DNode := { type := "document" }
  { store := ({ nodes := fun _ => blankNode, size := 0 } : Store).push doc,
    ancestry := [0], previous := 0 }

/-- The attribute post-processing loop of `onStartTag`. -/
def groupAttrs (attrs : List (String × String)) : List (String × AttrVal) :=
  attrs.map fun kv =>
    if GroupSet.contains kv.1 then (kv.1, AttrVal.tokens (splitTokens kv.2))
    else (kv.1, AttrVal.str kv.2)

/-- Allocate a data node (`Text` subclass) and link it in. -/
def dataNode (hs : HandlerState) (ty v : String) : HandlerState :=
  match hs.ancestry with
  | [] => hs
  | p :: _ =>
    let n := hs.store.size
    let st := Node.link (hs.store.push { type := ty, value := v }) n p hs.previous
    { hs with store := st, previous := n }

/-- Dispatch of one semantic event on the Handler. An `endTag` or node
creation against an empty ancestry would fault in JavaScript; the model
leaves the state unchanged there, and such events never arise from the
Parser, whose emitted traces keep the ancestry nonempty. -/
def hstep (hs : HandlerState) : HEvent → HandlerState
  | .startTag name attrs selfClosing =>
    match hs.ancestry with
    | [] => hs
    | p :: _ =>
      let n := hs.store.size
      let tag : DNode := { type := "tag", name := some name,
                           attributes := groupAttrs attrs }
      let st := Node.link (hs.store.push tag) n p hs.previous
      { store := st,
        ancestry := if selfClosing then hs.ancestry else n :: hs.ancestry,
        previous := n }
  | .endTag _ =>
    match hs.ancestry with
    | [] => hs
    | t :: rest =>
      let cs := (hs.store.nodes t).children
      let tl : Option Nat :=
        match cs.getLast? with
        | none => none
        | some c => some (((hs.store.nodes c).tail).getD c)
      { hs with store := hs.store.setN t { hs.store.nodes t with tail := tl },
                ancestry := rest }
  | .text v => dataNode hs "text" v
  | .comment v => dataNode hs "comment" v
  | .cdata v => dataNode hs "cdata" v
  | .declaration v => dataNode hs "doctype" v
  | .directive v => dataNode hs "directive" v

def run (evs : List HEvent) : HandlerState :=
  evs.foldl hstep init

end Handler

/-! ## Tokenizer (the unnamed Lexer source file) -/

namespace Character

def LESS_THAN : Nat := 0x3c
def SLASH : Nat := 0x2f
def GREATER_THAN : Nat := 0x3e
def EQUALS : Nat := 0x3d
def QUOTATION_MARK : Nat := 0x22
def APOSTROPHE : Nat := 0x27
def QUESTION_MARK : Nat := 0x3f
def EXCLAIMATION_MARK : Nat := 0x21
def DASH : Nat := 0x2d
def OPEN_BRACKET : Nat := 0x5b
def CLOSE_BRACKET : Nat := 0x5d
def AMPERSAND : Nat := 0x26
def NUMBER : Nat := 0x23
def SEMI_COLON : Nat := 0x3b
def LOWERCASE_A : Nat := 0x61
def LOWERCASE_Z : Nat := 0x7a
def ZERO : Nat := 0x30
def NINE : Nat := 0x39
def SPACE : Nat := 0x20

end Character

/-- `isAlphabetic` over a character code: force the 0x20 bit and test the
lowercase range. -/
def isAlphabetic (char : Nat) : Bool :=
  let c := char ||| Character.SPACE
  Character.LOWERCASE_A ≤ c && c ≤ Character.LOWERCASE_Z

def isAlphanumeric (char : Nat) : Bool :=
  isAlphabetic char || (Character.ZERO ≤ char && char ≤ Character.NINE)

def isWhitespace (char : Nat) : Bool :=
  char ≤ Character.SPACE

namespace Sequence

def STYLE : List Nat := [0x73, 0x74, 0x79, 0x6c, 0x65]
def SCRIPT : List Nat := [0x73, 0x63, 0x72, 0x69, 0x70, 0x74]
def TITLE : List Nat := [0x74, 0x69, 0x74, 0x6c, 0x65]
def TEXT_AREA : List Nat := [0x74, 0x65, 0x78, 0x74, 0x61, 0x72, 0x65, 0x61]
def XMP : List Nat := [0x78, 0x6d, 0x70]
def CDATA : List Nat := [0x43, 0x44, 0x41, 0x54, 0x41]
def DOCTYPE : List Nat := [0x64, 0x6f, 0x63, 0x74, 0x79, 0x70, 0x65]

end Sequence

/-- The per-state methods of the Lexer class, as an enumerated state tag. -/
inductive LState where
  | PAGE | TEXT | BEFORE_TEXT_ENTITY | TEXT_ENTITY
  | RAW_TEXT | RAW_TEXT_END_OPEN
  | START_TAG_OPEN | START_TAG_NAME
  | S_SEQUENCE_START | T_SEQUENCE_START
  | START_SEQUENCE_MATCH | END_SEQUENCE_MATCH
  | EXCLAIMATION | COMMENT_START | COMMENT | COMMENT_END_OPEN
  | COMMENT_END | COMMENT_END_CLOSE
  | CDATA_START | CDATA | CDATA_END_OPEN | CDATA_END
  | DECLARATION | DASHLESS_COMMENT | DIRECTIVE | DIRECTIVE_END
  | BEFORE_ATTRIBUTE_NAME | ATTRIBUTE_NAME | AFTER_ATTRIBUTE_NAME
  | BEFORE_ATTRIBUTE_VALUE
  | DQ_ATTRIBUTE_VALUE | SQ_ATTRIBUTE_VALUE | NQ_ATTRIBUTE_VALUE
  | BEFORE_ATTRIBUTE_ENTITY | ATTRIBUTE_ENTITY
  | SELF_CLOSING_TAG
  | END_TAG_OPEN | END_TAG_NAME | AFTER_END_TAG_NAME
deriving Repr, DecidableEq

/-- Mutable fields of the Lexer, with the driven Parser state inlined
(the JavaScript Lexer invokes the Parser callbacks synchronously).
`previous` is the return state, `next` the proceed state; JavaScript
initializes both to null and never reads them before assigning them in
reachable traces, so `PAGE` stands in for null. -/
structure MachineState where
  ps : ParserState
  state : LState
  previous : LState
  next : LState
  sectionStart : Nat
  sequence : Option (List Nat)
  sequenceIndex : Nat

namespace Lexer

def init (buffer : List Char) : MachineState :=
  { ps := Parser.init buffer, state := LState.PAGE,
    previous := LState.PAGE, next := LState.PAGE,
    sectionStart := 0, sequence := none, sequenceIndex := 0 }

/-- The text-emitting tail shared by the fallthrough branches of
`START_TAG_OPEN` (emit pending text, then the delayed section start
update). Indexes are at least 1 on every reachable call, so the natural
subtraction in `index - 1` is exact. -/
def startTagOpenEmit (index : Nat) (m : MachineState) : MachineState :=
  let ps :=
    if m.sectionStart ≠ index - 1 then
      Parser.onTextEnd (Parser.onText m.ps m.sectionStart (index - 1))
    else m.ps
  { m with ps := ps, sectionStart := index }

open Character LState in
/-- One Lexer dispatch `this.state(char)` at buffer position `index`.
The source idiom of reassigning `this.state` and re-invoking it on the
same character becomes a recursive call on spent fuel; redispatch chains
in the source are at most two deep, so any fuel of at least 3 per
character is never exhausted. -/
def lstep (dec : String → Option String) :
    Nat → Nat → Nat → MachineState → MachineState
  | 0, _, _, m => m
  | fuel + 1, index, char, m =>
    match m.state with
    | PAGE =>
      if isWhitespace char then m
      else if char = LESS_THAN then
        { m with state := START_TAG_OPEN, sectionStart := index }
      else if char = AMPERSAND then { m with state := BEFORE_TEXT_ENTITY }
      else { m with state := TEXT }
    | TEXT =>
      if char = LESS_THAN then { m with state := START_TAG_OPEN }
      else if char = AMPERSAND then { m with state := BEFORE_TEXT_ENTITY }
      else m
    | BEFORE_TEXT_ENTITY =>
      if isAlphanumeric char || char = NUMBER then
        let ps :=
          if m.sectionStart ≠ index - 1 then
            Parser.onText m.ps m.sectionStart (index - 1)
          else m.ps
        { m with ps := ps, state := TEXT_ENTITY, sectionStart := index }
      else lstep dec fuel index char { m with state := TEXT }
    | TEXT_ENTITY =>
      if isAlphanumeric char then m
      else
        let m := { m with ps := Parser.onTextEntity dec m.ps m.sectionStart index,
                          state := TEXT }
        if char = SEMI_COLON then { m with sectionStart := index + 1 }
        else lstep dec fuel index char { m with sectionStart := index }
    | RAW_TEXT =>
      if char = LESS_THAN then { m with state := RAW_TEXT_END_OPEN } else m
    | RAW_TEXT_END_OPEN =>
      if char = SLASH then
        { m with state := END_SEQUENCE_MATCH, sequenceIndex := 0 }
      else lstep dec fuel index char { m with state := RAW_TEXT }
    | START_TAG_OPEN =>
      if char = SLASH then { m with state := END_TAG_OPEN }
      else if isAlphabetic char then
        let m1 :=
          if char = Sequence.SCRIPT.getD 0 0 then
            { m with state := S_SEQUENCE_START,
                     previous := START_TAG_NAME, next := START_TAG_NAME }
          else if char = Sequence.TEXT_AREA.getD 0 0 then
            { m with state := T_SEQUENCE_START,
                     previous := START_TAG_NAME, next := START_TAG_NAME }
          else if char = Sequence.XMP.getD 0 0 then
            { m with state := START_SEQUENCE_MATCH,
                     sequence := some Sequence.XMP, sequenceIndex := 1,
                     previous := START_TAG_NAME, next := START_TAG_NAME }
          else { m with state := START_TAG_NAME }
        startTagOpenEmit index m1
      else if char = EXCLAIMATION_MARK then
        startTagOpenEmit index { m with state := EXCLAIMATION }
      else if char = QUESTION_MARK then
        startTagOpenEmit index { m with state := DIRECTIVE }
      else lstep dec fuel index char { m with state := TEXT }
    | START_TAG_NAME =>
      if isWhitespace char then
        { m with ps := Parser.onStartTagName m.ps m.sectionStart index,
                 state := BEFORE_ATTRIBUTE_NAME }
      else if char = GREATER_THAN then
        let ps := Parser.onStartTagClose
          (Parser.onStartTagName m.ps m.sectionStart index)
        { m with ps := ps,
                 state := if m.sequence.isSome then RAW_TEXT else PAGE,
                 sectionStart := index + 1 }
      else if char = SLASH then
        { m with ps := Parser.onStartTagName m.ps m.sectionStart index,
                 state := SELF_CLOSING_TAG }
      else m
    | S_SEQUENCE_START =>
      let c := char ||| SPACE
      if c = Sequence.SCRIPT.getD 1 0 then
        { m with sequence := some Sequence.SCRIPT,
                 state := START_SEQUENCE_MATCH, sequenceIndex := 2 }
      else if c = Sequence.STYLE.getD 1 0 then
        { m with sequence := some Sequence.STYLE,
                 state := START_SEQUENCE_MATCH, sequenceIndex := 2 }
      else lstep dec fuel index c { m with state := START_TAG_NAME }
    | T_SEQUENCE_START =>
      let c := char ||| SPACE
      if c = Sequence.TEXT_AREA.getD 1 0 then
        { m with sequence := some Sequence.TEXT_AREA,
                 state := START_SEQUENCE_MATCH, sequenceIndex := 2 }
      else if c = Sequence.TITLE.getD 1 0 then
        { m with sequence := some Sequence.TITLE,
                 state := START_SEQUENCE_MATCH, sequenceIndex := 2 }
      else lstep dec fuel index c { m with state := START_TAG_NAME }
    | START_SEQUENCE_MATCH =>
      let seq := m.sequence.getD []
      if (char ||| SPACE) ≠ seq.getD m.sequenceIndex 0 then
        let m1 := lstep dec fuel index char { m with state := m.previous }
        { m1 with sequence := none }
      else if m.sequenceIndex + 1 = seq.length then
        { m with state := m.next, sequenceIndex := m.sequenceIndex + 1 }
      else { m with sequenceIndex := m.sequenceIndex + 1 }
    | END_SEQUENCE_MATCH =>
      let seq := m.sequence.getD []
      if (char ||| SPACE) ≠ seq.getD m.sequenceIndex 0 then
        lstep dec fuel index char { m with state := RAW_TEXT }
      else if m.sequenceIndex + 1 = seq.length then
        let ps :=
          if m.sectionStart ≠ index - seq.length - 1 then
            Parser.onTextEnd
              (Parser.onText m.ps m.sectionStart (index - seq.length - 1))
          else m.ps
        { m with ps := ps, state := END_TAG_NAME,
                 sectionStart := index - seq.length + 1,
                 sequence := none, sequenceIndex := m.sequenceIndex + 1 }
      else { m with sequenceIndex := m.sequenceIndex + 1 }
    | EXCLAIMATION =>
      if char = DASH then { m with state := COMMENT_START }
      else if char = OPEN_BRACKET then
        { m with next := CDATA_START, sequence := some Sequence.CDATA,
                 previous := DASHLESS_COMMENT,
                 state := START_SEQUENCE_MATCH, sequenceIndex := 1 }
      else if (char ||| SPACE) = Sequence.DOCTYPE.getD 0 0 then
        { m with next := DECLARATION, sequence := some Sequence.DOCTYPE,
                 previous := DASHLESS_COMMENT,
                 state := START_SEQUENCE_MATCH, sequenceIndex := 1 }
      else { m with state := DASHLESS_COMMENT }
    | COMMENT_START =>
      if char = DASH then
        { m with state := COMMENT_END, sectionStart := index + 1 }
      else { m with state := DASHLESS_COMMENT }
    | COMMENT =>
      if char = DASH then { m with state := COMMENT_END_OPEN } else m
    | COMMENT_END_OPEN =>
      if char = DASH then { m with state := COMMENT_END }
      else { m with state := COMMENT }
    | COMMENT_END =>
      if char = GREATER_THAN then
        { m with ps := Parser.onComment m.ps m.sectionStart (index - 2),
                 state := PAGE, sectionStart := index + 1 }
      else if char = EXCLAIMATION_MARK then
        { m with state := COMMENT_END_CLOSE }
      else lstep dec fuel index char { m with state := COMMENT_END_OPEN }
    | COMMENT_END_CLOSE =>
      if char = GREATER_THAN then
        { m with ps := Parser.onComment m.ps m.sectionStart (index - 3),
                 state := PAGE, sectionStart := index + 1 }
      else lstep dec fuel index char { m with state := COMMENT }
    | CDATA_START =>
      if char = OPEN_BRACKET then
        { m with state := CDATA, sectionStart := index + 1 }
      else lstep dec fuel index char { m with state := DASHLESS_COMMENT }
    | CDATA =>
      if char = CLOSE_BRACKET then { m with state := CDATA_END_OPEN } else m
    | CDATA_END_OPEN =>
      if char = CLOSE_BRACKET then { m with state := CDATA_END }
      else { m with state := CDATA }
    | CDATA_END =>
      if char = GREATER_THAN then
        { m with ps := Parser.onCDATA m.ps m.sectionStart (index - 2),
                 state := PAGE, sectionStart := index + 1, sequence := none }
      else lstep dec fuel index char { m with state := CDATA_END_OPEN }
    | DECLARATION =>
      if char = GREATER_THAN then
        { m with ps := Parser.onDeclaration m.ps (m.sectionStart + 1) index,
                 state := PAGE, sectionStart := index + 1, sequence := none }
      else m
    | DASHLESS_COMMENT =>
      if char = GREATER_THAN then
        { m with ps := Parser.onComment m.ps (m.sectionStart + 1) index,
                 state := PAGE, sectionStart := index + 1 }
      else m
    | DIRECTIVE =>
      if char = QUESTION_MARK then { m with state := DIRECTIVE_END }
      else if char = GREATER_THAN then
        { m with state := PAGE, sectionStart := index + 1 }
      else m
    | DIRECTIVE_END =>
      if char = GREATER_THAN then
        { m with state := PAGE, sectionStart := index + 1 }
      else if char = QUESTION_MARK then m
      else { m with state := DIRECTIVE }
    | BEFORE_ATTRIBUTE_NAME =>
      if isWhitespace char then m
      else if char = SLASH then { m with state := SELF_CLOSING_TAG }
      else if char = GREATER_THAN then
        { m with ps := Parser.onStartTagClose m.ps,
                 state := if m.sequence.isSome then RAW_TEXT else PAGE,
                 sectionStart := index + 1 }
      else { m with state := ATTRIBUTE_NAME, sectionStart := index }
    | ATTRIBUTE_NAME =>
      if char = EQUALS then
        { m with ps := Parser.onAttributeName m.ps m.sectionStart index,
                 state := BEFORE_ATTRIBUTE_VALUE }
      else if isWhitespace char then
        { m with ps := Parser.onAttributeName m.ps m.sectionStart index,
                 state := AFTER_ATTRIBUTE_NAME }
      else if char = GREATER_THAN then
        let ps := Parser.onStartTagClose (Parser.onAttributeEnd
          (Parser.onAttributeName m.ps m.sectionStart index))
        { m with ps := ps,
                 state := if m.sequence.isSome then RAW_TEXT else PAGE,
                 sectionStart := index + 1 }
      else if char = SLASH then
        { m with ps := Parser.onAttributeEnd
                   (Parser.onAttributeName m.ps m.sectionStart index),
                 state := SELF_CLOSING_TAG }
      else m
    | AFTER_ATTRIBUTE_NAME =>
      if isWhitespace char then m
      else if char = SLASH then
        { m with ps := Parser.onAttributeEnd m.ps, state := SELF_CLOSING_TAG }
      else if char = GREATER_THAN then
        { m with ps := Parser.onStartTagClose (Parser.onAttributeEnd m.ps),
                 state := if m.sequence.isSome then RAW_TEXT else PAGE,
                 sectionStart := index + 1 }
      else if char = EQUALS then { m with state := BEFORE_ATTRIBUTE_VALUE }
      else
        { m with ps := Parser.onAttributeEnd m.ps,
                 state := ATTRIBUTE_NAME, sectionStart := index }
    | BEFORE_ATTRIBUTE_VALUE =>
      if isWhitespace char then m
      else if char = QUOTATION_MARK then
        { m with state := DQ_ATTRIBUTE_VALUE, sectionStart := index + 1 }
      else if char = APOSTROPHE then
        { m with state := SQ_ATTRIBUTE_VALUE, sectionStart := index + 1 }
      else if char = GREATER_THAN then
        { m with ps := Parser.onStartTagClose (Parser.onAttributeEnd m.ps),
                 state := if m.sequence.isSome then RAW_TEXT else PAGE,
                 sectionStart := index + 1 }
      else { m with state := NQ_ATTRIBUTE_VALUE, sectionStart := index }
    | DQ_ATTRIBUTE_VALUE =>
      if char = QUOTATION_MARK then
        let ps :=
          if m.sectionStart ≠ index then
            Parser.onAttributeEnd (Parser.onAttributeValue m.ps m.sectionStart index)
          else m.ps
        { m with ps := ps, state := BEFORE_ATTRIBUTE_NAME }
      else if char = AMPERSAND then
        { m with previous := DQ_ATTRIBUTE_VALUE, state := BEFORE_ATTRIBUTE_ENTITY }
      else m
    | SQ_ATTRIBUTE_VALUE =>
      if char = APOSTROPHE then
        let ps :=
          if m.sectionStart ≠ index then
            Parser.onAttributeEnd (Parser.onAttributeValue m.ps m.sectionStart index)
          else m.ps
        { m with ps := ps, state := BEFORE_ATTRIBUTE_NAME }
      else if char = AMPERSAND then
        { m with previous := SQ_ATTRIBUTE_VALUE, state := BEFORE_ATTRIBUTE_ENTITY }
      else m
    | NQ_ATTRIBUTE_VALUE =>
      if isWhitespace char then
        let ps :=
          if m.sectionStart ≠ index then
            Parser.onAttributeEnd (Parser.onAttributeValue m.ps m.sectionStart index)
          else m.ps
        { m with ps := ps, state := BEFORE_ATTRIBUTE_NAME }
      else if char = AMPERSAND then
        { m with previous := NQ_ATTRIBUTE_VALUE, state := BEFORE_ATTRIBUTE_ENTITY }
      else if char = GREATER_THAN then
        let ps :=
          if m.sectionStart ≠ index then
            Parser.onAttributeEnd (Parser.onAttributeValue m.ps m.sectionStart index)
          else m.ps
        { m with ps := Parser.onStartTagClose ps,
                 state := if m.sequence.isSome then RAW_TEXT else PAGE,
                 sectionStart := index + 1 }
      else m
    | BEFORE_ATTRIBUTE_ENTITY =>
      if isAlphanumeric char || char = NUMBER then
        let ps :=
          if m.sectionStart ≠ index - 1 then
            Parser.onAttributeValue m.ps m.sectionStart (index - 1)
          else m.ps
        { m with ps := ps, state := ATTRIBUTE_ENTITY, sectionStart := index }
      else lstep dec fuel index char { m with state := m.previous }
    | ATTRIBUTE_ENTITY =>
      if isAlphanumeric char then m
      else
        let m := { m with ps := Parser.onAttributeEntity dec m.ps m.sectionStart index,
                          state := m.previous }
        if char = SEMI_COLON then { m with sectionStart := index + 1 }
        else lstep dec fuel index char { m with sectionStart := index }
    | SELF_CLOSING_TAG =>
      if char = GREATER_THAN then
        { m with ps := Parser.onStartTagClose m.ps,
                 state := PAGE, sectionStart := index + 1 }
      else if !isWhitespace char then
        { m with state := ATTRIBUTE_NAME, sectionStart := index }
      else m
    | END_TAG_OPEN =>
      if isAlphabetic char then
        let ps :=
          if m.sectionStart ≠ index - 2 then
            Parser.onTextEnd (Parser.onText m.ps m.sectionStart (index - 2))
          else m.ps
        { m with ps := ps, state := END_TAG_NAME, sectionStart := index }
      else if !isWhitespace char then { m with state := TEXT }
      else m
    | END_TAG_NAME =>
      if char = GREATER_THAN then
        { m with ps := Parser.onEndTagName m.ps m.sectionStart index,
                 state := PAGE, sectionStart := index + 1 }
      else if isWhitespace char then
        { m with ps := Parser.onEndTagName m.ps m.sectionStart index,
                 state := AFTER_END_TAG_NAME }
      else m
    | AFTER_END_TAG_NAME =>
      if char = GREATER_THAN then
        { m with state := PAGE, sectionStart := index + 1 }
      else m

/-- Redispatch depth bound used for every character. -/
def FUEL : Nat := 8

/-- `Lexer.write(chunk)`: set the Parser buffer, then dispatch every
character in order (the do/while loop; an empty chunk dispatches nothing
of consequence and is modelled as a no-op). -/
def write (dec : String → Option String) (input : String)
    (m0 : MachineState) : MachineState :=
  let m0 := { m0 with ps := { m0.ps with buffer := input.data } }
  (List.range input.length).foldl
    (fun m i => lstep dec FUEL i ((input.data.getD i ' ').toNat) m) m0

end Lexer

/-- The full session: `new Lexer(new Parser(new Handler())).end(input)` —
tokenize, force-close the remaining open tags, and build the tree from the
emitted semantic events. The Parser never reads Handler state, so folding
the Handler over the collected events afterwards agrees with running its
callbacks inline. -/
def pipeline (dec : String → Option String) (input : String) : HandlerState :=
  Handler.run (Parser.onEnd (Lexer.write dec input (Lexer.init input.data)).ps).events

/-- A decoder with an empty reference table: every name is unresolved. -/
def dec0 : String → Option String := fun _ => none

/-! ## Traversal generators (the unnamed traversal source file)

The generators read only the `children` and `type` members of nodes, so
they are modelled over an immutable rose tree carrying a node identity,
the type discriminator and the child list. A data node of the real tree
has no `children` member; its empty list here makes the same conditions
false. -/

structure TNode where
  id : Nat
  type : String
  children : List TNode
deriving Repr

/-- The maximum depth option: `none` models the default `Infinity`. -/
def lvlLt (level : Nat) : Option Nat → Bool
  | none => true
  | some l => level < l

/-- The shared retention predicate of both generators:
`level < last && children?.length && (inclusive || children.length !== 1
|| children[0].type !== 'text')`. -/
def retainNode (level : Nat) (last : Option Nat) (inclusive : Bool)
    (nd : TNode) : Bool :=
  lvlLt level last && !nd.children.isEmpty &&
    (inclusive || nd.children.length ≠ 1 ||
      ((nd.children.headD ⟨0, "", []⟩).type ≠ "text"))

structure DFrame where
  ancestor : TNode
  index : Nat

/-- The body of the depth-first `posterity` loop, one iteration per call;
the working stack keeps its top at the head. The loop is driven by fuel,
which any concrete run here never exhausts. -/
def posterityGo (skip : Nat) (last : Option Nat) (inclusive leaf : Bool) :
    Nat → Nat → List DFrame → List TNode → List TNode
  | 0, _, _, acc => acc
  | _ + 1, _, [], acc => acc
  | fuel + 1, level, top :: rest, acc =>
    let branch := top.ancestor.children
    let stackNext : List DFrame × Nat :=
      if top.index + 1 = branch.length then (rest, rest.length)
      else ({ ancestor := top.ancestor, index := top.index + 1 } :: rest, 0)
    let stack := stackNext.1
    let next := stackNext.2
    let nd := branch.getD top.index ⟨0, "", []⟩
    if retainNode level last inclusive nd then
      let stack := { ancestor := nd, index := 0 } :: stack
      let level := level + 1
      if leaf then posterityGo skip last inclusive leaf fuel level stack acc
      else
        let acc := if level > skip then acc ++ [nd] else acc
        let level := if next ≠ 0 then next else level
        posterityGo skip last inclusive leaf fuel level stack acc
    else
      let acc := if level > skip then acc ++ [nd] else acc
      let level := if next ≠ 0 then next else level
      posterityGo skip last inclusive leaf fuel level stack acc

/-- `posterity(options)` on a node, with the yielded nodes collected into a
list in yield order. -/
def posterity (fuel : Nat) (self : TNode) (skip : Nat) (last : Option Nat)
    (inclusive leaf : Bool) : List TNode :=
  if last = some 0 then []
  else posterityGo skip last inclusive leaf fuel 1 [{ ancestor := self, index := 0 }] []

/-- The inner branch loop of the breadth-first `descendants` generator:
yields and retains the children of one ceiling node. -/
def descendantsBranch (skip : Nat) (last : Option Nat) (inclusive leaf : Bool)
    (level : Nat) : List TNode → List TNode × List TNode
  | [] => ([], [])
  | nd :: ns =>
    let rec0 := descendantsBranch skip last inclusive leaf level ns
    let retain := lvlLt level last
    let submit := level > skip
    if retain && !nd.children.isEmpty &&
        (inclusive || nd.children.length ≠ 1 ||
          ((nd.children.headD ⟨0, "", []⟩).type ≠ "text")) then
      if leaf then (rec0.1, nd :: rec0.2)
      else ((if submit then [nd] else []) ++ rec0.1, nd :: rec0.2)
    else ((if submit then [nd] else []) ++ rec0.1, rec0.2)

/-- One full level of `descendants`: sweep every ceiling node. -/
def descendantsLevel (skip : Nat) (last : Option Nat) (inclusive leaf : Bool)
    (level : Nat) : List TNode → List TNode × List TNode
  | [] => ([], [])
  | c :: cs =>
    let here := descendantsBranch skip last inclusive leaf level c.children
    let rest := descendantsLevel skip last inclusive leaf level cs
    (here.1 ++ rest.1, here.2 ++ rest.2)

/-- The outer level loop of `descendants`, driven by fuel. -/
def descendantsGo (skip : Nat) (last : Option Nat) (inclusive leaf : Bool) :
    Nat → Nat → List TNode → List TNode → List TNode
  | 0, _, _, acc => acc
  | fuel + 1, level, queue, acc =>
    if queue.isEmpty then acc
    else
      let step := descendantsLevel skip last inclusive leaf level queue
      descendantsGo skip last inclusive leaf fuel (level + 1) step.2 (acc ++ step.1)

/-- `descendants(options)` on a node, yields collected in order. -/
def descendants (fuel : Nat) (self : TNode) (skip : Nat) (last : Option Nat)
    (inclusive leaf : Bool) : List TNode :=
  if last = some 0 then []
  else descendantsGo skip last inclusive leaf fuel 1 [self] []

/-- Read a finished store back as a rose tree for feeding the traversal
generators (identity, type discriminator and child list are all the
generators consult). -/
def storeToTNode (st : Store) : Nat → Nat → TNode
  | 0, i => ⟨i, (st.nodes i).type, []⟩
  | fuel + 1, i =>
    ⟨i, (st.nodes i).type, (st.nodes i).children.map (storeToTNode st fuel)⟩

/-! ## Specification-side observers

These definitions are not translations of program code; they express the
observable properties the claims quantify over (event-trace balance, the
depth-first flattening of the child lists, the document-order chain). -/

/-- Balance check on a semantic event trace: counts tags opened beyond the
synthetic root and refuses a close against a bare root. A trace emitted by
the Parser always passes, since the Parser only emits an end tag while
popping its own stack. -/
def wfRun : Nat → List HEvent → Option Nat
  | o, [] => some o
  | o, HEvent.startTag _ _ sc :: es => wfRun (if sc then o else o + 1) es
  | o, HEvent.endTag _ :: es =>
    match o with
    | 0 => none
    | o' + 1 => wfRun o' es
  | o, _ :: es => wfRun o es

/-- Depth-first flattening of the child lists starting at node `i`: the
node, then the flattening of each child in order. Driven by fuel; any
fuel at least the store size is enough on a well-formed store. -/
def preorderAux (st : Store) : Nat → Nat → List Nat
  | 0, _ => []
  | fuel + 1, i => i :: ((st.nodes i).children.map (preorderAux st fuel)).flatten

/-- Walk the document-order `next` chain from node `i`. -/
def walkNext (st : Store) : Nat → Nat → List Nat
  | 0, _ => []
  | fuel + 1, i =>
    i :: (match (st.nodes i).next with
          | none => []
          | some j => walkNext st fuel j)

/-- Ghost rose trees over node indexes, used to relate the pointer store
to the tree shape the Handler is building. -/
inductive RoseT where
  | node : Nat → List RoseT → RoseT

def RoseT.root : RoseT → Nat
  | .node i _ => i

mutual

def flatT : RoseT → List Nat
  | .node i ks => i :: flatF ks

def flatF : List RoseT → List Nat
  | [] => []
  | t :: ts => flatT t ++ flatF ts

end

mutual

/-- The store agrees with a finished ghost subtree: child lists match and
every tail points at the last node of the flattening of the child forest
(which is `none` exactly on childless nodes). -/
def subtreeOK (st : Store) : RoseT → Prop
  | .node i ks =>
    (st.nodes i).children = ks.map RoseT.root ∧
    (st.nodes i).tail = (flatF ks).getLast? ∧
    forestOK st ks

def forestOK (st : Store) : List RoseT → Prop
  | [] => True
  | t :: ts => subtreeOK st t ∧ forestOK st ts

end

/-- The store agrees with one open spine entry: the recorded children are
the roots of the finished child forest followed by the still-open child
(if any), and the tail is not yet set. -/
def spineEntryOK (st : Store) (t : Nat) (ks : List RoseT) (upper : List Nat) : Prop :=
  (st.nodes t).children = ks.map RoseT.root ++ upper ∧
  (st.nodes t).tail = none ∧
  forestOK st ks

/-- The spine below a given entry, ending at the document root 0. -/
def spineFromOK (st : Store) : Nat → List (Nat × List RoseT) → Prop
  | t, [] => t = 0
  | t, (p, ps2) :: rest => spineEntryOK st p ps2 [t] ∧ spineFromOK st p rest

/-- The whole zipper (open spine, top first, with the finished child
forests hanging off each entry) agrees with the store. -/
def spineOK (st : Store) : List (Nat × List RoseT) → Prop
  | [] => False
  | top :: rest => spineEntryOK st top.1 top.2 [] ∧ spineFromOK st top.1 rest

/-- Flattening of the zipper in document order: bottom entries first, each
contributing itself and its finished forest. -/
def flatZ : List (Nat × List RoseT) → List Nat
  | [] => []
  | (t, ks) :: rest => flatZ rest ++ t :: flatF ks

/-- The simulation invariant between the Handler state and the ghost
zipper. -/
structure HInv (hs : HandlerState) (z : List (Nat × List RoseT)) : Prop where
  anc : hs.ancestry = z.map Prod.fst
  sp : spineOK hs.store z
  flat : flatZ z = List.range hs.store.size
  prev : hs.previous + 1 = hs.store.size
  nextc : ∀ i, i + 1 < hs.store.size → (hs.store.nodes i).next = some (i + 1)
  nextl : (hs.store.nodes (hs.store.size - 1)).next = none

def Handler.runFrom (hs : HandlerState) (evs : List HEvent) : HandlerState :=
  evs.foldl Handler.hstep hs

/-! ## Supporting lemmas: store and link -/

theorem Store.nodes_setN (st : Store) (i : Nat) (v : DNode) (j : Nat) :
    (st.setN i v).nodes j = if j = i then v else st.nodes j := rfl

theorem Store.size_setN (st : Store) (i : Nat) (v : DNode) :
    (st.setN i v).size = st.size := rfl

theorem Store.nodes_push (st : Store) (v : DNode) (j : Nat) :
    (st.push v).nodes j = if j = st.size then v else st.nodes j := rfl

theorem Store.size_push (st : Store) (v : DNode) :
    (st.push v).size = st.size + 1 := rfl

/-! ## Supporting lemmas: the end-tag do/while loop -/

theorem closeOut_spec (d : Nat) : ∀ ps : ParserState,
    Parser.closeOut d ps
      = { ps with
          events := ps.events ++ (List.replicate d (HEvent.endTag false) ++ [HEvent.endTag true]),
          stack := ps.stack.drop (d + 1) } := by
  induction d with
  | zero => intro ps; simp [Parser.closeOut]
  | succ d ih =>
    intro ps
    rw [Parser.closeOut, ih]
    simp [List.replicate_succ, List.drop_drop]

theorem closeImplicitLoop_spec (close : List String) : ∀ stack : List String,
    Parser.closeImplicitLoop close stack
      = (List.replicate (stack.takeWhile (fun t => close.contains t)).length
           (HEvent.endTag false),
         stack.dropWhile (fun t => close.contains t)) := by
  intro stack
  induction stack with
  | nil => simp [Parser.closeImplicitLoop]
  | cons top rest ih =>
    by_cases h : close.contains top
    · rw [Parser.closeImplicitLoop, if_pos h, ih]
      rw [List.takeWhile_cons, List.dropWhile_cons, if_pos h, if_pos h]
      simp [List.replicate_succ]
    · rw [Parser.closeImplicitLoop, if_neg h]
      rw [List.takeWhile_cons, List.dropWhile_cons, if_neg h, if_neg h]
      simp

/-- The start-tag-close handler in closed form: the cascade closes the
longest implicit-closable prefix of the stack, the new tag is reported with
the void classification, and a non-void tag is pushed. -/
theorem startTagClose_spec (ps : ParserState) :
    Parser.onStartTagClose ps
      = { ps with
          events := ps.events
            ++ List.replicate
                ((ps.stack.takeWhile
                  (fun t => (implicitCloseGet (ps.tagName.getD "")).contains t)).length)
                (HEvent.endTag false)
            ++ [HEvent.startTag (ps.tagName.getD "") ps.attributes
                  (emptyElements.contains (ps.tagName.getD ""))],
          stack :=
            if emptyElements.contains (ps.tagName.getD "") then
              ps.stack.dropWhile
                (fun t => (implicitCloseGet (ps.tagName.getD "")).contains t)
            else
              (ps.tagName.getD "")
                :: ps.stack.dropWhile
                     (fun t => (implicitCloseGet (ps.tagName.getD "")).contains t),
          tagName := none, attributes := [] } := by
  simp [Parser.onStartTagClose, closeImplicitLoop_spec]

/-! ## Supporting lemmas: the end-tag stack search -/

theorem distanceFromTop_le (name : String) : ∀ l : List String,
    Parser.distanceFromTop name l ≤ l.length := by
  intro l
  induction l with
  | nil => simp [Parser.distanceFromTop]
  | cons top rest ih =>
    by_cases h : top == name
    · simp [Parser.distanceFromTop, h]
    · simp [Parser.distanceFromTop, h]; omega

theorem distanceFromTop_of_not_mem (name : String) : ∀ l : List String,
    name ∉ l → Parser.distanceFromTop name l = l.length := by
  intro l
  induction l with
  | nil => simp [Parser.distanceFromTop]
  | cons top rest ih =>
    intro h
    have h1 : ¬(top == name) := by
      simp only [beq_iff_eq]
      intro he; exact h (by simp [he])
    have h2 : name ∉ rest := fun hm => h (List.mem_cons_of_mem _ hm)
    simp [Parser.distanceFromTop, h1, ih h2]
    omega

theorem distanceFromTop_lt_of_mem (name : String) : ∀ l : List String,
    name ∈ l → Parser.distanceFromTop name l < l.length := by
  intro l
  induction l with
  | nil => simp
  | cons top rest ih =>
    intro h
    by_cases h1 : top == name
    · simp [Parser.distanceFromTop, h1]
    · have h2 : name ∈ rest := by
        rcases List.mem_cons.mp h with h3 | h3
        · exact absurd (by simp [h3]) h1
        · exact h3
      simp only [List.length_cons]
      rw [Parser.distanceFromTop, if_neg (by simpa using h1)]
      have := ih h2
      omega

theorem distanceFromTop_getD (name : String) : ∀ l : List String,
    Parser.distanceFromTop name l < l.length →
      l.getD (Parser.distanceFromTop name l) "" = name
    ∧ ∀ j < Parser.distanceFromTop name l, l.getD j "" ≠ name := by
  intro l
  induction l with
  | nil => simp
  | cons top rest ih =>
    intro h
    by_cases h1 : top == name
    · refine ⟨?_, ?_⟩
      · simp [Parser.distanceFromTop, h1, beq_iff_eq.mp h1]
      · intro j hj
        simp [Parser.distanceFromTop, h1] at hj
    · have hd : Parser.distanceFromTop name (top :: rest)
          = 1 + Parser.distanceFromTop name rest := by
        simp [Parser.distanceFromTop, h1]
      rw [hd] at h ⊢
      simp only [List.length_cons] at h
      have hrest : Parser.distanceFromTop name rest < rest.length := by omega
      obtain ⟨hg, hn⟩ := ih hrest
      refine ⟨?_, ?_⟩
      · have : 1 + Parser.distanceFromTop name rest
            = Parser.distanceFromTop name rest + 1 := by omega
        rw [this]
        simpa using hg
      · intro j hj
        match j with
        | 0 =>
          simp only [List.getD_cons_zero]
          exact fun he => h1 (by simp [he])
        | j' + 1 =>
          simp only [List.getD_cons_succ]
          exact hn j' (by omega)

/-! ## Claim C1 -/

/-- C1: for every non-void end tag, if no open-tag-stack entry matches the
name, the end tag is dropped and the stack is unchanged; if the nearest
match from the top sits at depth d, exactly d + 1 tags close: the d
shallower ones each flagged implicit (false), then the matched tag flagged
explicit (true), and the stack loses its top d + 1 entries. -/
theorem C1_end_tag_resolution (ps : ParserState) (s e : Nat)
    (hnv : emptyElements.contains (Parser.slice ps s e) = false) :
    (Parser.slice ps s e ∉ ps.stack → Parser.onEndTagName ps s e = ps)
  ∧ (Parser.slice ps s e ∈ ps.stack →
      ps.stack.getD (Parser.distanceFromTop (Parser.slice ps s e) ps.stack) ""
        = Parser.slice ps s e
    ∧ (∀ j < Parser.distanceFromTop (Parser.slice ps s e) ps.stack,
        ps.stack.getD j "" ≠ Parser.slice ps s e)
    ∧ (Parser.onEndTagName ps s e).events
        = ps.events
          ++ List.replicate (Parser.distanceFromTop (Parser.slice ps s e) ps.stack)
               (HEvent.endTag false)
          ++ [HEvent.endTag true]
    ∧ (Parser.onEndTagName ps s e).stack
        = ps.stack.drop (Parser.distanceFromTop (Parser.slice ps s e) ps.stack + 1)) := by
  constructor
  · intro hnm
    rw [Parser.onEndTagName]
    rw [if_neg (by rw [hnv]; exact Bool.false_ne_true)]
    rw [if_pos (distanceFromTop_of_not_mem _ _ hnm)]
  · intro hm
    have hlt := distanceFromTop_lt_of_mem _ _ hm
    obtain ⟨hg, hn⟩ := distanceFromTop_getD _ _ hlt
    have hne : Parser.onEndTagName ps s e
        = Parser.closeOut (Parser.distanceFromTop (Parser.slice ps s e) ps.stack) ps := by
      rw [Parser.onEndTagName]
      rw [if_neg (by rw [hnv]; exact Bool.false_ne_true)]
      rw [if_neg (by omega)]
    refine ⟨hg, hn, ?_, ?_⟩
    · rw [hne, closeOut_spec]
      simp
    · rw [hne, closeOut_spec]

def C1ps : ParserState :=
  { Parser.init "div".data with stack := ["a", "b", "div", "c"] }

theorem C1_end_tag_resolution_witness :
    emptyElements.contains (Parser.slice C1ps 0 3) = false
  ∧ (Parser.onEndTagName C1ps 0 3).events
      = [HEvent.endTag false, HEvent.endTag false, HEvent.endTag true]
  ∧ (Parser.onEndTagName C1ps 0 3).stack = ["c"] := by
  have h := C1_end_tag_resolution C1ps 0 3 (by decide)
  obtain ⟨-, -, hev, hst⟩ := h.2 (by decide)
  refine ⟨by decide, ?_, ?_⟩
  · rw [hev]; rfl
  · rw [hst]; rfl

/-! ## Claim C4 -/

/-- The `<ul><li>A<li>B</ul>` tree, read back from the finished pipeline
store: document 0, ul 1, li 2 with text 3, li 4 with text 5. -/
def C4tree : TNode :=
  storeToTNode (pipeline dec0 "<ul><li>A<li>B</ul>").store 4 0

/-- C4: refuted on a finished tree of the pipeline. With options
skip 1, last unbounded, inclusive false, leaf false, the depth-first
generator yields the ul node (id 1) together with the two li nodes, while
the breadth-first generator yields only the two li nodes: the two
generators do not produce the same set of nodes. The depth-first loop
increments its level counter for a retained node before comparing against
skip, so internal nodes at depth exactly skip are yielded depth-first but
not breadth-first. -/
theorem C4_traversal_divergence :
    (posterity 100 C4tree 1 none false false).map TNode.id = [1, 2, 4]
  ∧ (descendants 100 C4tree 1 none false false).map TNode.id = [2, 4]
  ∧ (1 : Nat) ∈ (posterity 100 C4tree 1 none false false).map TNode.id
  ∧ (1 : Nat) ∉ (descendants 100 C4tree 1 none false false).map TNode.id := by
  refine ⟨by rfl, by rfl, by decide, by decide⟩

/-! ## Claim C6 -/

/-- C6: immediately before a new start tag is pushed, the implicit-closing
table is applied repeatedly — the cascade pops exactly the longest prefix
of the stack lying in the set mapped from the opening name, flagging each
close implicit — and parsing of a list with two unclosed items builds a ul
with exactly two li children holding the texts A and B. The event trace
shows the first li closing (implicit, flag false) exactly when the second
li opens. -/
theorem C6_implicit_close_cascade :
    (∀ ps : ParserState,
      Parser.onStartTagClose ps
        = { ps with
            events := ps.events
              ++ List.replicate
                  ((ps.stack.takeWhile
                    (fun t => (implicitCloseGet (ps.tagName.getD "")).contains t)).length)
                  (HEvent.endTag false)
              ++ [HEvent.startTag (ps.tagName.getD "") ps.attributes
                    (emptyElements.contains (ps.tagName.getD ""))],
            stack :=
              if emptyElements.contains (ps.tagName.getD "") then
                ps.stack.dropWhile
                  (fun t => (implicitCloseGet (ps.tagName.getD "")).contains t)
              else
                (ps.tagName.getD "")
                  :: ps.stack.dropWhile
                       (fun t => (implicitCloseGet (ps.tagName.getD "")).contains t),
            tagName := none, attributes := [] })
  ∧ (Parser.onEnd (Lexer.write dec0 "<ul><li>A<li>B</ul>"
        (Lexer.init "<ul><li>A<li>B</ul>".data)).ps).events
      = [HEvent.startTag "ul" [] false,
         HEvent.startTag "li" [] false,
         HEvent.text "A",
         HEvent.endTag false,
         HEvent.startTag "li" [] false,
         HEvent.text "B",
         HEvent.endTag false,
         HEvent.endTag true]
  ∧ ((pipeline dec0 "<ul><li>A<li>B</ul>").store.nodes 0).children = [1]
  ∧ ((pipeline dec0 "<ul><li>A<li>B</ul>").store.nodes 1).name = some "ul"
  ∧ ((pipeline dec0 "<ul><li>A<li>B</ul>").store.nodes 1).children = [2, 4]
  ∧ ((pipeline dec0 "<ul><li>A<li>B</ul>").store.nodes 2).name = some "li"
  ∧ ((pipeline dec0 "<ul><li>A<li>B</ul>").store.nodes 2).children = [3]
  ∧ ((pipeline dec0 "<ul><li>A<li>B</ul>").store.nodes 3).type = "text"
  ∧ ((pipeline dec0 "<ul><li>A<li>B</ul>").store.nodes 3).value = "A"
  ∧ ((pipeline dec0 "<ul><li>A<li>B</ul>").store.nodes 4).name = some "li"
  ∧ ((pipeline dec0 "<ul><li>A<li>B</ul>").store.nodes 4).children = [5]
  ∧ ((pipeline dec0 "<ul><li>A<li>B</ul>").store.nodes 5).value = "B"
  ∧ (pipeline dec0 "<ul><li>A<li>B</ul>").store.size = 6 :=
  ⟨startTagClose_spec, rfl, rfl, rfl, rfl, rfl, rfl, rfl, rfl, rfl, rfl, rfl, rfl⟩

/-! ## Claim C5 -/

/-- C5 counterexample: the input text `x&unknownEntity;y<b>` (the trailing
tag flushes the pending text) produces the text node `x&unknownEntityy`:
the terminating semicolon of the unresolved reference is consumed by the
Lexer and never restored, so `&unknownEntity;` does not decode to itself. -/
theorem C5_semicolon_counterexample :
    ((pipeline dec0 "x&unknownEntity;y<b>").store.nodes 1).type = "text"
  ∧ ((pipeline dec0 "x&unknownEntity;y<b>").store.nodes 1).value = "x&unknownEntityy"
  ∧ ((pipeline dec0 "x&unknownEntity;y<b>").store.nodes 1).value ≠ "x&unknownEntity;y" :=
  ⟨rfl, rfl, by decide⟩

/-- C5 amended: a character-reference span whose name the Decoder does not
resolve is pushed to the text buffer literally with the leading ampersand
restored — never an error — but the terminating semicolon was consumed by
the Lexer and is not part of the restored text, so `&unknownEntity;`
decodes to `&unknownEntity`. -/
theorem C5_unresolved_entity_literal (dec : String → Option String)
    (ps : ParserState) (s e : Nat) (h : dec (Parser.slice ps s e) = none) :
    Parser.onTextEntity dec ps s e
      = { ps with text := ps.text ++ ["&" ++ Parser.slice ps s e] } := by
  rw [Parser.onTextEntity]
  simp [h]

def C5ps : ParserState := Parser.init "unknownEntity".data

theorem C5_unresolved_entity_literal_witness :
    dec0 (Parser.slice C5ps 0 13) = none
  ∧ (Parser.onTextEntity dec0 C5ps 0 13).text = ["&unknownEntity"] := by
  refine ⟨rfl, ?_⟩
  rw [C5_unresolved_entity_literal dec0 C5ps 0 13 rfl]
  rfl

/-! ## Claim C2, counterexample part -/

/-- C2 counterexample: `foo` is not in the void-element set, yet its start
tag carries the explicit self-closing marker. The Parser defines no
handler for the self-closing signal of the Lexer, so the tag is pushed
anyway: the following b element becomes its child and its children
sequence is not empty. -/
theorem C2_self_closing_marker_counterexample :
    emptyElements.contains "foo" = false
  ∧ ((pipeline dec0 "<foo/><b>x</b>").store.nodes 1).name = some "foo"
  ∧ ((pipeline dec0 "<foo/><b>x</b>").store.nodes 1).children = [2]
  ∧ ((pipeline dec0 "<foo/><b>x</b>").store.nodes 2).name = some "b"
  ∧ ((pipeline dec0 "<foo/><b>x</b>").store.nodes 1).children ≠ [] :=
  ⟨rfl, rfl, rfl, rfl, by decide⟩

/-! ## Claim C3, counterexample part -/

/-- C3 counterexample: a tag with no retained children receives, at its
closing event, a tail of `undefined` (modelled `none`) — not a pointer to
the tag itself as the claim states. -/
theorem C3_childless_tail_counterexample :
    ((pipeline dec0 "<div></div>").store.nodes 1).name = some "div"
  ∧ ((pipeline dec0 "<div></div>").store.nodes 1).children = []
  ∧ ((pipeline dec0 "<div></div>").store.nodes 1).tail = none
  ∧ ((pipeline dec0 "<div></div>").store.nodes 1).tail ≠ some 1 :=
  ⟨rfl, rfl, rfl, by decide⟩

/-! ## Claim C9 -/

theorem raw_text_step (dec : String → Option String) (fuel index c : Nat)
    (m : MachineState) (h1 : m.state = LState.RAW_TEXT)
    (h2 : c ≠ Character.LESS_THAN) :
    Lexer.lstep dec (fuel + 1) index c m = m := by
  cases m with
  | mk ps state previous next sectionStart sequence sequenceIndex =>
    simp only [MachineState.state] at h1
    subst h1
    rw [Lexer.lstep]
    simp [h2]

theorem raw_text_end_open_step (dec : String → Option String) (fuel index c : Nat)
    (m : MachineState) (h1 : m.state = LState.RAW_TEXT_END_OPEN)
    (h2 : c ≠ Character.SLASH) (h3 : c ≠ Character.LESS_THAN) :
    Lexer.lstep dec (fuel + 2) index c m = { m with state := LState.RAW_TEXT } := by
  cases m with
  | mk ps state previous next sectionStart sequence sequenceIndex =>
    simp only [MachineState.state] at h1
    subst h1
    rw [Lexer.lstep]
    simp only [h2, if_false, if_neg h2]
    exact raw_text_step dec fuel index c _ rfl h3

/-- C9: in raw-text mode every character other than a literal opening
angle bracket passes through with no event and no state change, and an
opening bracket not followed by a slash falls straight back to raw-text
mode; consequently the script example tokenizes to a single script tag
whose only child is the literal text of its body. -/
theorem C9_raw_text_passthrough :
    (∀ (dec : String → Option String) (fuel index c : Nat) (m : MachineState),
       m.state = LState.RAW_TEXT → c ≠ Character.LESS_THAN →
       Lexer.lstep dec (fuel + 1) index c m = m)
  ∧ (∀ (dec : String → Option String) (fuel index c : Nat) (m : MachineState),
       m.state = LState.RAW_TEXT_END_OPEN →
       c ≠ Character.SLASH → c ≠ Character.LESS_THAN →
       Lexer.lstep dec (fuel + 2) index c m = { m with state := LState.RAW_TEXT })
  ∧ ((pipeline dec0 "<script>if (a<b) \x7b\x7d</script>").store.nodes 0).children = [1]
  ∧ ((pipeline dec0 "<script>if (a<b) \x7b\x7d</script>").store.nodes 1).name
      = some "script"
  ∧ ((pipeline dec0 "<script>if (a<b) \x7b\x7d</script>").store.nodes 1).children = [2]
  ∧ ((pipeline dec0 "<script>if (a<b) \x7b\x7d</script>").store.nodes 2).type = "text"
  ∧ ((pipeline dec0 "<script>if (a<b) \x7b\x7d</script>").store.nodes 2).value
      = "if (a<b) \x7b\x7d"
  ∧ (pipeline dec0 "<script>if (a<b) \x7b\x7d</script>").store.size = 3 :=
  ⟨raw_text_step, raw_text_end_open_step, rfl, rfl, rfl, rfl, rfl, rfl⟩

def C9m : MachineState := { Lexer.init [] with state := LState.RAW_TEXT }

theorem C9_raw_text_passthrough_witness :
    C9m.state = LState.RAW_TEXT
  ∧ (120 : Nat) ≠ Character.LESS_THAN
  ∧ Lexer.lstep dec0 1 5 120 C9m = C9m :=
  ⟨rfl, by decide, C9_raw_text_passthrough.1 dec0 0 5 120 C9m rfl (by decide)⟩

/-! ## Parser run invariants -/

theorem lowerChar_not_upper (c : Char) : (lowerChar c).isUpper = false := by
  unfold lowerChar
  by_cases h : c.isUpper
  · simp only [h, if_true]
    have hb : 65 ≤ c.toNat ∧ c.toNat ≤ 90 := by
      simp only [Char.isUpper, Bool.and_eq_true, decide_eq_true_eq] at h
      exact ⟨h.1, h.2⟩
    obtain ⟨h1, h2⟩ := hb
    interval_cases hc : c.toNat <;> decide
  · rw [if_neg h]; simpa using h

theorem jsToLower_no_upper (s : String) :
    ∀ c ∈ (jsToLower s).data, c.isUpper = false := by
  intro c hc
  simp only [jsToLower, List.asString] at hc
  obtain ⟨a, -, rfl⟩ := List.mem_map.mp hc
  exact lowerChar_not_upper a

theorem wfRun_append (xs : List HEvent) : ∀ (o : Nat) (ys : List HEvent),
    wfRun o (xs ++ ys) = (wfRun o xs).bind (fun o2 => wfRun o2 ys) := by
  induction xs with
  | nil => intro o ys; rfl
  | cons x rest ih =>
    intro o ys
    match x with
    | HEvent.startTag nm at_ sc => simp only [List.cons_append, wfRun]; exact ih _ ys
    | HEvent.endTag b =>
      match o with
      | 0 => rfl
      | o' + 1 => simp only [List.cons_append, wfRun]; exact ih _ ys
    | HEvent.text v => simp only [List.cons_append, wfRun]; exact ih _ ys
    | HEvent.comment v => simp only [List.cons_append, wfRun]; exact ih _ ys
    | HEvent.cdata v => simp only [List.cons_append, wfRun]; exact ih _ ys
    | HEvent.declaration v => simp only [List.cons_append, wfRun]; exact ih _ ys
    | HEvent.directive v => simp only [List.cons_append, wfRun]; exact ih _ ys

theorem wfRun_replicate_false (k : Nat) : ∀ o : Nat,
    wfRun (o + k) (List.replicate k (HEvent.endTag false)) = some o := by
  induction k with
  | zero => intro o; rfl
  | succ k ih =>
    intro o
    rw [List.replicate_succ]
    show wfRun (o + (k + 1)) (HEvent.endTag false :: List.replicate k (HEvent.endTag false)) = some o
    have : o + (k + 1) = (o + k) + 1 := by omega
    rw [this, wfRun]
    exact ih o

/-- The running invariant of the Parser over any lexical event sequence:
the open-tag stack holds only lowercased, non-void names, the pending tag
name is lowercased, and the emitted semantic trace is balanced with
exactly the stack length still open. -/
structure PInv (ps : ParserState) : Prop where
  stackLower : ∀ nm ∈ ps.stack, ∀ c ∈ nm.data, c.isUpper = false
  tagLower : ∀ t, ps.tagName = some t → ∀ c ∈ t.data, c.isUpper = false
  stackNonVoid : ∀ nm ∈ ps.stack, emptyElements.contains nm = false
  bal : wfRun 0 ps.events = some ps.stack.length

theorem pinv_init (buffer : List Char) : PInv (Parser.init buffer) := by
  refine ⟨?_, ?_, ?_, rfl⟩ <;> intro nm h <;> simp [Parser.init] at h

theorem pstep_pinv (dec : String → Option String) (ps : ParserState)
    (e : PEvent) (h : PInv ps) : PInv (Parser.pstep dec ps e) := by
  obtain ⟨hsl, htl, hsv, hb⟩ := h
  match e with
  | .text s e => exact ⟨hsl, htl, hsv, hb⟩
  | .textEntity s e => exact ⟨hsl, htl, hsv, hb⟩
  | .textEnd =>
    refine ⟨hsl, htl, hsv, ?_⟩
    show wfRun 0 (ps.events ++ [HEvent.text _]) = _
    rw [wfRun_append, hb]
    rfl
  | .startTagName s e =>
    refine ⟨hsl, ?_, hsv, hb⟩
    intro t ht
    simp only [Parser.pstep, Parser.onStartTagName, Option.some.injEq] at ht
    rw [← ht]
    exact jsToLower_no_upper _
  | .attributeName s e => exact ⟨hsl, htl, hsv, hb⟩
  | .attributeValue s e => exact ⟨hsl, htl, hsv, hb⟩
  | .attributeEntity s e => exact ⟨hsl, htl, hsv, hb⟩
  | .attributeEnd => exact ⟨hsl, htl, hsv, hb⟩
  | .selfClosingTag => exact ⟨hsl, htl, hsv, hb⟩
  | .directive s e => exact ⟨hsl, htl, hsv, hb⟩
  | .startTagClose =>
    show PInv (Parser.onStartTagClose ps)
    rw [startTagClose_spec]
    have hname : ∀ c ∈ (ps.tagName.getD "").data, c.isUpper = false := by
      match hv : ps.tagName with
      | none => intro c hc; simp at hc
      | some t => exact htl t hv
    have hdropmem : ∀ nm ∈ ps.stack.dropWhile
        (fun t => (implicitCloseGet (ps.tagName.getD "")).contains t), nm ∈ ps.stack :=
      fun nm hm => (List.dropWhile_sublist _).subset hm
    have hkle : (ps.stack.takeWhile
        (fun t => (implicitCloseGet (ps.tagName.getD "")).contains t)).length
        + (ps.stack.dropWhile
        (fun t => (implicitCloseGet (ps.tagName.getD "")).contains t)).length
        = ps.stack.length := by
      rw [← List.length_append, List.takeWhile_append_dropWhile]
    by_cases hsc : emptyElements.contains (ps.tagName.getD "")
    · refine ⟨?_, by simp, ?_, ?_⟩
      · intro nm hm
        simp only [if_pos hsc] at hm
        exact hsl nm (hdropmem nm hm)
      · intro nm hm
        simp only [if_pos hsc] at hm
        exact hsv nm (hdropmem nm hm)
      · simp only [if_pos hsc]
        rw [wfRun_append, wfRun_append, hb]
        show (wfRun ps.stack.length _).bind _ = _
        have hstack : ps.stack.length
            = (ps.stack.dropWhile
                (fun t => (implicitCloseGet (ps.tagName.getD "")).contains t)).length
              + (ps.stack.takeWhile
                (fun t => (implicitCloseGet (ps.tagName.getD "")).contains t)).length := by
          omega
        rw [hstack, wfRun_replicate_false]
        simp [wfRun, hsc]
        simpa using hsc
    · refine ⟨?_, by simp, ?_, ?_⟩
      · intro nm hm
        simp only [if_neg hsc] at hm
        rcases List.mem_cons.mp hm with h1 | h1
        · rw [h1]; exact hname
        · exact hsl nm (hdropmem nm h1)
      · intro nm hm
        simp only [if_neg hsc] at hm
        rcases List.mem_cons.mp hm with h1 | h1
        · rw [h1]
          exact Bool.of_not_eq_true hsc
        · exact hsv nm (hdropmem nm h1)
      · simp only [if_neg hsc]
        rw [wfRun_append, wfRun_append, hb]
        show (wfRun ps.stack.length _).bind _ = _
        have hstack : ps.stack.length
            = (ps.stack.dropWhile
                (fun t => (implicitCloseGet (ps.tagName.getD "")).contains t)).length
              + (ps.stack.takeWhile
                (fun t => (implicitCloseGet (ps.tagName.getD "")).contains t)).length := by
          omega
        rw [hstack, wfRun_replicate_false]
        have hnv : emptyElements.contains (ps.tagName.getD "") = false :=
          Bool.of_not_eq_true hsc
        simp [wfRun, hnv]
        simpa using hnv
  | .comment s e =>
    refine ⟨hsl, htl, hsv, ?_⟩
    show wfRun 0 (ps.events ++ [HEvent.comment _]) = _
    rw [wfRun_append, hb]
    rfl
  | .cdata s e =>
    refine ⟨hsl, htl, hsv, ?_⟩
    show wfRun 0 (ps.events ++ [HEvent.cdata _]) = _
    rw [wfRun_append, hb]
    rfl
  | .declaration s e =>
    refine ⟨hsl, htl, hsv, ?_⟩
    show wfRun 0 (ps.events ++ [HEvent.declaration _]) = _
    rw [wfRun_append, hb]
    rfl
  | .endTagName s e =>
    show PInv (Parser.onEndTagName ps s e)
    rw [Parser.onEndTagName]
    by_cases h1 : emptyElements.contains (Parser.slice ps s e)
    · rw [if_pos h1]; exact ⟨hsl, htl, hsv, hb⟩
    · rw [if_neg h1]
      by_cases h2 : Parser.distanceFromTop (Parser.slice ps s e) ps.stack
          = ps.stack.length
      · rw [if_pos h2]; exact ⟨hsl, htl, hsv, hb⟩
      · rw [if_neg h2]
        have hlt : Parser.distanceFromTop (Parser.slice ps s e) ps.stack
            < ps.stack.length :=
          lt_of_le_of_ne (distanceFromTop_le _ _) h2
        rw [closeOut_spec]
        refine ⟨?_, htl, ?_, ?_⟩
        · intro nm hm
          exact hsl nm (List.drop_subset _ _ hm)
        · intro nm hm
          exact hsv nm (List.drop_subset _ _ hm)
        · rw [← List.append_assoc, wfRun_append, wfRun_append, hb]
          show (wfRun ps.stack.length _).bind _ = _
          have hstack : ps.stack.length
              = (ps.stack.length
                  - (Parser.distanceFromTop (Parser.slice ps s e) ps.stack + 1) + 1)
                + Parser.distanceFromTop (Parser.slice ps s e) ps.stack := by
            omega
          rw [hstack, wfRun_replicate_false]
          simp [wfRun]

theorem pinv_run (dec : String → Option String) (buffer : List Char)
    (pevs : List PEvent) : PInv (Parser.run dec buffer pevs) := by
  suffices h : ∀ (evs : List PEvent) (ps : ParserState),
      PInv ps → PInv (evs.foldl (Parser.pstep dec) ps) by
    exact h pevs _ (pinv_init buffer)
  intro evs
  induction evs with
  | nil => intro ps h; exact h
  | cons e rest ih => intro ps h; exact ih _ (pstep_pinv dec ps e h)

/-! ## Store and link effect lemmas -/

theorem setN_field_children (st : Store) (i : Nat) (v : DNode) (j : Nat) :
    ((st.setN i v).nodes j).children
      = if j = i then v.children else (st.nodes j).children := by
  rw [Store.nodes_setN, apply_ite DNode.children]

theorem setN_field_tail (st : Store) (i : Nat) (v : DNode) (j : Nat) :
    ((st.setN i v).nodes j).tail
      = if j = i then v.tail else (st.nodes j).tail := by
  rw [Store.nodes_setN, apply_ite DNode.tail]

theorem setN_field_next (st : Store) (i : Nat) (v : DNode) (j : Nat) :
    ((st.setN i v).nodes j).next
      = if j = i then v.next else (st.nodes j).next := by
  rw [Store.nodes_setN, apply_ite DNode.next]

theorem setN_pres_children (st : Store) (i : Nat) (v : DNode)
    (hv : v.children = (st.nodes i).children) (j : Nat) :
    ((st.setN i v).nodes j).children = (st.nodes j).children := by
  rw [setN_field_children]
  split
  · next h => rw [hv, h]
  · rfl

theorem setN_pres_tail (st : Store) (i : Nat) (v : DNode)
    (hv : v.tail = (st.nodes i).tail) (j : Nat) :
    ((st.setN i v).nodes j).tail = (st.nodes j).tail := by
  rw [setN_field_tail]
  split
  · next h => rw [hv, h]
  · rfl

theorem setN_pres_next (st : Store) (i : Nat) (v : DNode)
    (hv : v.next = (st.nodes i).next) (j : Nat) :
    ((st.setN i v).nodes j).next = (st.nodes j).next := by
  rw [setN_field_next]
  split
  · next h => rw [hv, h]
  · rfl

theorem linkParent_children (st : Store) (n p : Nat) (j : Nat) :
    ((Node.linkParent st n p).nodes j).children = (st.nodes j).children := by
  rw [Node.linkParent, setN_field_children]
  split
  · next h => subst h; rfl
  · rfl

theorem linkParent_tail (st : Store) (n p : Nat) (j : Nat) :
    ((Node.linkParent st n p).nodes j).tail = (st.nodes j).tail := by
  rw [Node.linkParent, setN_field_tail]
  split
  · next h => subst h; rfl
  · rfl

theorem linkParent_next (st : Store) (n p : Nat) (j : Nat) :
    ((Node.linkParent st n p).nodes j).next = (st.nodes j).next := by
  rw [Node.linkParent, setN_field_next]
  split
  · next h => subst h; rfl
  · rfl

theorem linkChildPush_children (st : Store) (n p : Nat) (j : Nat) :
    ((Node.linkChildPush st n p).nodes j).children
      = if j = p then (st.nodes p).children ++ [n] else (st.nodes j).children := by
  rw [Node.linkChildPush, setN_field_children]

theorem linkChildPush_tail (st : Store) (n p : Nat) (j : Nat) :
    ((Node.linkChildPush st n p).nodes j).tail = (st.nodes j).tail := by
  rw [Node.linkChildPush, setN_field_tail]
  split
  · next h => subst h; rfl
  · rfl

theorem linkChildPush_next (st : Store) (n p : Nat) (j : Nat) :
    ((Node.linkChildPush st n p).nodes j).next = (st.nodes j).next := by
  rw [Node.linkChildPush, setN_field_next]
  split
  · next h => subst h; rfl
  · rfl

theorem linkPrevSibling_children (st : Store) (n : Nat) (sib : Option Nat) (j : Nat) :
    ((Node.linkPrevSibling st n sib).nodes j).children = (st.nodes j).children := by
  rw [Node.linkPrevSibling, setN_field_children]
  split
  · next h => subst h; rfl
  · rfl

theorem linkPrevSibling_tail (st : Store) (n : Nat) (sib : Option Nat) (j : Nat) :
    ((Node.linkPrevSibling st n sib).nodes j).tail = (st.nodes j).tail := by
  rw [Node.linkPrevSibling, setN_field_tail]
  split
  · next h => subst h; rfl
  · rfl

theorem linkPrevSibling_next (st : Store) (n : Nat) (sib : Option Nat) (j : Nat) :
    ((Node.linkPrevSibling st n sib).nodes j).next = (st.nodes j).next := by
  rw [Node.linkPrevSibling, setN_field_next]
  split
  · next h => subst h; rfl
  · rfl

theorem linkSibNext_children (st : Store) (n : Nat) (sib : Option Nat) (j : Nat) :
    ((Node.linkSibNext st n sib).nodes j).children = (st.nodes j).children := by
  cases sib with
  | none => rfl
  | some q =>
    rw [Node.linkSibNext, setN_field_children]
    split
    · next h => subst h; rfl
    · rfl

theorem linkSibNext_tail (st : Store) (n : Nat) (sib : Option Nat) (j : Nat) :
    ((Node.linkSibNext st n sib).nodes j).tail = (st.nodes j).tail := by
  cases sib with
  | none => rfl
  | some q =>
    rw [Node.linkSibNext, setN_field_tail]
    split
    · next h => subst h; rfl
    · rfl

theorem linkSibNext_next (st : Store) (n : Nat) (sib : Option Nat) (j : Nat) :
    ((Node.linkSibNext st n sib).nodes j).next = (st.nodes j).next := by
  cases sib with
  | none => rfl
  | some q =>
    rw [Node.linkSibNext, setN_field_next]
    split
    · next h => subst h; rfl
    · rfl

theorem linkPrevious_children (st : Store) (n prev : Nat) (j : Nat) :
    ((Node.linkPrevious st n prev).nodes j).children = (st.nodes j).children := by
  rw [Node.linkPrevious, setN_field_children]
  split
  · next h => subst h; rfl
  · rfl

theorem linkPrevious_tail (st : Store) (n prev : Nat) (j : Nat) :
    ((Node.linkPrevious st n prev).nodes j).tail = (st.nodes j).tail := by
  rw [Node.linkPrevious, setN_field_tail]
  split
  · next h => subst h; rfl
  · rfl

theorem linkPrevious_next (st : Store) (n prev : Nat) (j : Nat) :
    ((Node.linkPrevious st n prev).nodes j).next = (st.nodes j).next := by
  rw [Node.linkPrevious, setN_field_next]
  split
  · next h => subst h; rfl
  · rfl

theorem linkNext_children (st : Store) (n prev : Nat) (j : Nat) :
    ((Node.linkNext st n prev).nodes j).children = (st.nodes j).children := by
  rw [Node.linkNext, setN_field_children]
  split
  · next h => subst h; rfl
  · rfl

theorem linkNext_tail (st : Store) (n prev : Nat) (j : Nat) :
    ((Node.linkNext st n prev).nodes j).tail = (st.nodes j).tail := by
  rw [Node.linkNext, setN_field_tail]
  split
  · next h => subst h; rfl
  · rfl

theorem linkNext_next (st : Store) (n prev : Nat) (j : Nat) :
    ((Node.linkNext st n prev).nodes j).next
      = if j = prev then some n else (st.nodes j).next := by
  rw [Node.linkNext, setN_field_next]

theorem linkSibNext_size (st : Store) (n : Nat) (sib : Option Nat) :
    (Node.linkSibNext st n sib).size = st.size := by
  cases sib <;> rfl

theorem link_children (st : Store) (n p prev : Nat) (j : Nat) :
    ((Node.link st n p prev).nodes j).children
      = if j = p then (st.nodes p).children ++ [n] else (st.nodes j).children := by
  show ((Node.linkNext _ n prev).nodes j).children = _
  rw [linkNext_children, linkPrevious_children, linkSibNext_children,
      linkPrevSibling_children, linkChildPush_children]
  split
  · next h => rw [linkParent_children]
  · next h => rw [linkParent_children]

theorem link_tail (st : Store) (n p prev : Nat) (j : Nat) :
    ((Node.link st n p prev).nodes j).tail = (st.nodes j).tail := by
  show ((Node.linkNext _ n prev).nodes j).tail = _
  rw [linkNext_tail, linkPrevious_tail, linkSibNext_tail,
      linkPrevSibling_tail, linkChildPush_tail, linkParent_tail]

theorem link_next (st : Store) (n p prev : Nat) (j : Nat) :
    ((Node.link st n p prev).nodes j).next
      = if j = prev then some n else (st.nodes j).next := by
  show ((Node.linkNext _ n prev).nodes j).next = _
  rw [linkNext_next]
  split
  · rfl
  · rw [linkPrevious_next, linkSibNext_next,
        linkPrevSibling_next, linkChildPush_next, linkParent_next]

theorem link_size (st : Store) (n p prev : Nat) :
    (Node.link st n p prev).size = st.size := by
  show (Node.linkNext _ n prev).size = _
  rw [Node.linkNext, Store.size_setN, Node.linkPrevious, Store.size_setN,
      linkSibNext_size, Node.linkPrevSibling, Store.size_setN,
      Node.linkChildPush, Store.size_setN, Node.linkParent, Store.size_setN]

/-! ## Handler frame invariants -/

/-- Bounds invariant of the Handler: every open ancestor is an allocated
node, and unallocated slots hold no children. -/
structure HFrame (hs : HandlerState) : Prop where
  ancLt : ∀ a ∈ hs.ancestry, a < hs.store.size
  highBlank : ∀ j, hs.store.size ≤ j → (hs.store.nodes j).children = []

theorem hframe_init : HFrame Handler.init := by
  constructor
  · intro a ha
    simp [Handler.init] at ha ⊢
    simp [ha, Store.size_push]
  · intro j hj
    simp only [Handler.init, Store.size_push] at hj
    show ((({ nodes := fun _ => blankNode, size := 0 } : Store).push _).nodes j).children = []
    rw [Store.nodes_push]
    rw [if_neg (by show j ≠ (0 : Nat); omega)]
    rfl

/-- The Handler state after allocating node `nd`, linking it under parent
`p`, and optionally pushing it onto the ancestry (proof-side shorthand for
the common shape of every node-creating step). -/
def createdState (hs : HandlerState) (nd : DNode) (push : Bool) (p : Nat) :
    HandlerState :=
  { store := Node.link (hs.store.push nd) hs.store.size p hs.previous,
    ancestry := if push then hs.store.size :: hs.ancestry else hs.ancestry,
    previous := hs.store.size }

theorem hstep_nil (hs : HandlerState) (e : HEvent) (hanc : hs.ancestry = []) :
    Handler.hstep hs e = hs := by
  cases e <;> simp [Handler.hstep, Handler.dataNode, hanc]

theorem hstep_data_eq (hs : HandlerState) (ty v : String) (p : Nat)
    (rest : List Nat) (hanc : hs.ancestry = p :: rest) :
    Handler.dataNode hs ty v
      = createdState hs { type := ty, value := v } false p := by
  rw [Handler.dataNode, hanc]
  simp [createdState, hanc]

theorem setN_tail_update_children (st : Store) (i : Nat) (tl : Option Nat) (j : Nat) :
    ((st.setN i { st.nodes i with tail := tl }).nodes j).children
      = (st.nodes j).children :=
  setN_pres_children st i { st.nodes i with tail := tl } rfl j

theorem hstep_text_eq (hs : HandlerState) (v : String) (p : Nat)
    (rest : List Nat) (hanc : hs.ancestry = p :: rest) :
    Handler.hstep hs (HEvent.text v)
      = createdState hs { type := "text", value := v } false p :=
  hstep_data_eq hs "text" v p rest hanc

theorem hstep_comment_eq (hs : HandlerState) (v : String) (p : Nat)
    (rest : List Nat) (hanc : hs.ancestry = p :: rest) :
    Handler.hstep hs (HEvent.comment v)
      = createdState hs { type := "comment", value := v } false p :=
  hstep_data_eq hs "comment" v p rest hanc

theorem hstep_cdata_eq (hs : HandlerState) (v : String) (p : Nat)
    (rest : List Nat) (hanc : hs.ancestry = p :: rest) :
    Handler.hstep hs (HEvent.cdata v)
      = createdState hs { type := "cdata", value := v } false p :=
  hstep_data_eq hs "cdata" v p rest hanc

theorem hstep_declaration_eq (hs : HandlerState) (v : String) (p : Nat)
    (rest : List Nat) (hanc : hs.ancestry = p :: rest) :
    Handler.hstep hs (HEvent.declaration v)
      = createdState hs { type := "doctype", value := v } false p :=
  hstep_data_eq hs "doctype" v p rest hanc

theorem hstep_directive_eq (hs : HandlerState) (v : String) (p : Nat)
    (rest : List Nat) (hanc : hs.ancestry = p :: rest) :
    Handler.hstep hs (HEvent.directive v)
      = createdState hs { type := "directive", value := v } false p :=
  hstep_data_eq hs "directive" v p rest hanc

theorem hstep_startTag_eq (hs : HandlerState) (name : String)
    (attrs : List (String × String)) (sc : Bool) (p : Nat) (rest : List Nat)
    (hanc : hs.ancestry = p :: rest) :
    Handler.hstep hs (HEvent.startTag name attrs sc)
      = createdState hs
          { type := "tag", name := some name, attributes := Handler.groupAttrs attrs }
          (!sc) p := by
  rw [Handler.hstep, hanc]
  cases sc <;> simp [createdState, hanc]

/-- Store and ancestry effects of one node creation. -/
theorem createdState_facts (hs : HandlerState) (nd : DNode) (push : Bool)
    (p : Nat) (hnd : nd.children = []) (hp : p < hs.store.size) :
    (createdState hs nd push p).store.size = hs.store.size + 1
  ∧ (∀ j, ((createdState hs nd push p).store.nodes j).children
      = if j = p then (hs.store.nodes p).children ++ [hs.store.size]
        else if j = hs.store.size then [] else (hs.store.nodes j).children) := by
  refine ⟨by simp [createdState, link_size, Store.size_push], ?_⟩
  intro j
  show ((Node.link (hs.store.push nd) hs.store.size p hs.previous).nodes j).children = _
  rw [link_children]
  by_cases hjp : j = p
  · rw [if_pos hjp, if_pos hjp, Store.nodes_push]
    rw [if_neg (by omega)]
  · rw [if_neg hjp, if_neg hjp, Store.nodes_push]
    by_cases hjn : j = hs.store.size
    · rw [if_pos hjn, if_pos hjn, hnd]
    · rw [if_neg hjn, if_neg hjn]

theorem createdState_frame (hs : HandlerState) (nd : DNode) (push : Bool)
    (p : Nat) (rest : List Nat) (hnd : nd.children = [])
    (hanc : hs.ancestry = p :: rest) (hf : HFrame hs) :
    HFrame (createdState hs nd push p)
  ∧ hs.store.size ≤ (createdState hs nd push p).store.size
  ∧ (∀ i, i ∉ hs.ancestry → i < hs.store.size →
      ((createdState hs nd push p).store.nodes i).children = (hs.store.nodes i).children
    ∧ i ∉ (createdState hs nd push p).ancestry) := by
  obtain ⟨hal, hhb⟩ := hf
  have hp : p < hs.store.size := hal p (by rw [hanc]; simp)
  obtain ⟨hsize, hch⟩ := createdState_facts hs nd push p hnd hp
  have hanc1 : (createdState hs nd push p).ancestry
      = if push then hs.store.size :: hs.ancestry else hs.ancestry := rfl
  refine ⟨⟨?_, ?_⟩, by omega, ?_⟩
  · intro a ha
    rw [hanc1] at ha
    rw [hsize]
    by_cases hpu : push
    · rw [if_pos hpu] at ha
      rcases List.mem_cons.mp ha with h1 | h1
      · omega
      · exact Nat.lt_succ_of_lt (hal a h1)
    · rw [if_neg hpu] at ha
      exact Nat.lt_succ_of_lt (hal a ha)
  · intro j hj
    rw [hsize] at hj
    rw [hch, if_neg (by omega), if_neg (by omega)]
    exact hhb j (by omega)
  · intro i h1 h2
    have hip : i ≠ p := by
      intro he; rw [he] at h1; exact h1 (by rw [hanc]; simp)
    refine ⟨by rw [hch, if_neg hip, if_neg (by omega)], ?_⟩
    rw [hanc1]
    by_cases hpu : push
    · rw [if_pos hpu]
      intro hmem
      rcases List.mem_cons.mp hmem with hbad | hbad
      · omega
      · exact h1 hbad
    · rw [if_neg hpu]; exact h1

/-- One Handler step: the frame invariant is preserved, the store only
grows, and any allocated node outside the ancestry keeps its child list
and stays outside the ancestry. -/
theorem hframe_step (hs : HandlerState) (e : HEvent) (hf : HFrame hs) :
    HFrame (Handler.hstep hs e)
  ∧ hs.store.size ≤ (Handler.hstep hs e).store.size
  ∧ (∀ i, i ∉ hs.ancestry → i < hs.store.size →
      ((Handler.hstep hs e).store.nodes i).children = (hs.store.nodes i).children
    ∧ i ∉ (Handler.hstep hs e).ancestry) := by
  obtain hanc | ⟨p, rest, hanc⟩ : hs.ancestry = [] ∨ ∃ p rest, hs.ancestry = p :: rest := by
    cases hs.ancestry with
    | nil => exact Or.inl rfl
    | cons p rest => exact Or.inr ⟨p, rest, rfl⟩
  · rw [hstep_nil hs e hanc]
    exact ⟨hf, le_refl _, fun i h1 h2 => ⟨rfl, h1⟩⟩
  · match e with
    | HEvent.startTag name attrs sc =>
      rw [hstep_startTag_eq hs name attrs sc p rest hanc]
      exact createdState_frame hs
        { type := "tag", name := some name, attributes := Handler.groupAttrs attrs }
        (!sc) p rest rfl hanc hf
    | HEvent.endTag b =>
      have hpop : Handler.hstep hs (HEvent.endTag b)
          = { hs with
              store := hs.store.setN p
                { hs.store.nodes p with
                  tail := match ((hs.store.nodes p).children).getLast? with
                          | none => none
                          | some c => some (((hs.store.nodes c).tail).getD c) },
              ancestry := rest } := by
        rw [Handler.hstep, hanc]
      rw [hpop]
      have hch := setN_tail_update_children hs.store p
        (match ((hs.store.nodes p).children).getLast? with
         | none => none
         | some c => some (((hs.store.nodes c).tail).getD c))
      obtain ⟨hal, hhb⟩ := hf
      refine ⟨⟨?_, ?_⟩, ?_, ?_⟩
      · intro a ha
        simp only [Store.size_setN]
        exact hal a (by rw [hanc]; exact List.mem_cons_of_mem _ ha)
      · intro j hj
        simp only [Store.size_setN] at hj
        rw [hch]
        exact hhb j hj
      · simp [Store.size_setN]
      · intro i h1 h2
        refine ⟨hch i, ?_⟩
        intro hmem
        exact h1 (by rw [hanc]; exact List.mem_cons_of_mem _ hmem)
    | HEvent.text v =>
      rw [hstep_text_eq hs v p rest hanc]
      exact createdState_frame hs { type := "text", value := v } false p rest rfl hanc hf
    | HEvent.comment v =>
      rw [hstep_comment_eq hs v p rest hanc]
      exact createdState_frame hs { type := "comment", value := v } false p rest rfl hanc hf
    | HEvent.cdata v =>
      rw [hstep_cdata_eq hs v p rest hanc]
      exact createdState_frame hs { type := "cdata", value := v } false p rest rfl hanc hf
    | HEvent.declaration v =>
      rw [hstep_declaration_eq hs v p rest hanc]
      exact createdState_frame hs { type := "doctype", value := v } false p rest rfl hanc hf
    | HEvent.directive v =>
      rw [hstep_directive_eq hs v p rest hanc]
      exact createdState_frame hs { type := "directive", value := v } false p rest rfl hanc hf

theorem hframe_fold (evs : List HEvent) : ∀ (hs : HandlerState), HFrame hs →
    HFrame (Handler.runFrom hs evs)
  ∧ (∀ i, i ∉ hs.ancestry → i < hs.store.size →
      ((Handler.runFrom hs evs).store.nodes i).children = (hs.store.nodes i).children
    ∧ i ∉ (Handler.runFrom hs evs).ancestry) := by
  induction evs with
  | nil => intro hs hf; exact ⟨hf, fun i h1 h2 => ⟨rfl, h1⟩⟩
  | cons e rest ih =>
    intro hs hf
    obtain ⟨hf1, hsz, hfr⟩ := hframe_step hs e hf
    obtain ⟨hf2, hfr2⟩ := ih (Handler.hstep hs e) hf1
    refine ⟨hf2, ?_⟩
    intro i h1 h2
    obtain ⟨hc1, hn1⟩ := hfr i h1 h2
    obtain ⟨hc2, hn2⟩ := hfr2 i hn1 (by omega)
    exact ⟨by rw [Handler.runFrom] at hc2 ⊢; rw [List.foldl_cons, hc2, hc1], hn2⟩

theorem hframe_run (evs : List HEvent) : HFrame (Handler.run evs) :=
  (hframe_fold evs Handler.init hframe_init).1

/-! ## Ancestry shape under balanced traces -/

theorem getLast?_cons_of_ne_nil (a : Nat) (l : List Nat) (h : l ≠ []) :
    (a :: l).getLast? = l.getLast? := by
  cases l with
  | nil => exact absurd rfl h
  | cons b t => exact List.getLast?_cons_cons

theorem runFrom_cons (hs : HandlerState) (e : HEvent) (rest : List HEvent) :
    Handler.runFrom hs (e :: rest) = Handler.runFrom (Handler.hstep hs e) rest := rfl

/-- The tail value computed by `onEndTag` for the popped tag `t`:
`tag.children.at(-1)?.tail ?? tag.children.at(-1)`. -/
def tailCompute (hs : HandlerState) (t : Nat) : Option Nat :=
  match ((hs.store.nodes t).children).getLast? with
  | none => none
  | some c => some (((hs.store.nodes c).tail).getD c)

theorem hstep_endTag_eq (hs : HandlerState) (b : Bool) (t : Nat) (tl : List Nat)
    (hanc : hs.ancestry = t :: tl) :
    Handler.hstep hs (HEvent.endTag b)
      = { hs with
          store := hs.store.setN t { hs.store.nodes t with tail := tailCompute hs t },
          ancestry := tl } := by
  rw [Handler.hstep, hanc]
  rfl

theorem hstep_data_anc (hs : HandlerState) (e : HEvent)
    (hdata : ∀ name attrs sc, e ≠ HEvent.startTag name attrs sc)
    (hend : ∀ b, e ≠ HEvent.endTag b) :
    (Handler.hstep hs e).ancestry = hs.ancestry := by
  obtain hanc | ⟨p, rest, hanc⟩ : hs.ancestry = [] ∨ ∃ p rest, hs.ancestry = p :: rest := by
    cases hs.ancestry with
    | nil => exact Or.inl rfl
    | cons p rest => exact Or.inr ⟨p, rest, rfl⟩
  · rw [hstep_nil hs _ hanc]
  · match e with
    | HEvent.startTag name attrs sc => exact absurd rfl (hdata name attrs sc)
    | HEvent.endTag b => exact absurd rfl (hend b)
    | HEvent.text v => rw [hstep_text_eq hs v p rest hanc]; rfl
    | HEvent.comment v => rw [hstep_comment_eq hs v p rest hanc]; rfl
    | HEvent.cdata v => rw [hstep_cdata_eq hs v p rest hanc]; rfl
    | HEvent.declaration v => rw [hstep_declaration_eq hs v p rest hanc]; rfl
    | HEvent.directive v => rw [hstep_directive_eq hs v p rest hanc]; rfl

theorem wfRun_startTag (o : Nat) (name : String) (attrs : List (String × String))
    (sc : Bool) (es : List HEvent) :
    wfRun o (HEvent.startTag name attrs sc :: es)
      = wfRun (if sc then o else o + 1) es := rfl

theorem wfRun_endTag_zero (b : Bool) (es : List HEvent) :
    wfRun 0 (HEvent.endTag b :: es) = none := rfl

theorem wfRun_endTag_succ (o : Nat) (b : Bool) (es : List HEvent) :
    wfRun (o + 1) (HEvent.endTag b :: es) = wfRun o es := rfl

/-- Over a balanced trace the ancestry length tracks the open count and
the document root stays at the bottom. -/
theorem anc_shape (evs : List HEvent) : ∀ (o o2 : Nat),
    wfRun o evs = some o2 → ∀ hs : HandlerState,
    hs.ancestry.length = o + 1 → hs.ancestry.getLast? = some 0 →
    (Handler.runFrom hs evs).ancestry.length = o2 + 1
  ∧ (Handler.runFrom hs evs).ancestry.getLast? = some 0 := by
  induction evs with
  | nil =>
    intro o o2 hwf hs hl hg
    cases hwf
    exact ⟨hl, hg⟩
  | cons e rest ih =>
    intro o o2 hwf hs hl hg
    have hne : hs.ancestry ≠ [] := by
      intro hbad; rw [hbad] at hl; simp at hl
    obtain ⟨p, tl, hanc⟩ : ∃ p tl, hs.ancestry = p :: tl := by
      cases hanc0 : hs.ancestry with
      | nil => exact absurd hanc0 hne
      | cons p tl => exact ⟨p, tl, rfl⟩
    match e with
    | HEvent.startTag name attrs sc =>
      rw [wfRun_startTag] at hwf
      rw [runFrom_cons, hstep_startTag_eq hs name attrs sc p tl hanc]
      cases sc with
      | true =>
        rw [if_pos rfl] at hwf
        refine ih o o2 hwf _ ?_ ?_
        · show (if !true then hs.store.size :: hs.ancestry else hs.ancestry).length = _
          simpa using hl
        · show (if !true then hs.store.size :: hs.ancestry else hs.ancestry).getLast? = _
          simpa using hg
      | false =>
        rw [if_neg (by simp)] at hwf
        refine ih (o + 1) o2 hwf _ ?_ ?_
        · show (if !false then hs.store.size :: hs.ancestry else hs.ancestry).length = _
          simp [hl]
        · show (if !false then hs.store.size :: hs.ancestry else hs.ancestry).getLast? = _
          simp only [Bool.not_false, if_true]
          rw [getLast?_cons_of_ne_nil _ _ hne]
          exact hg
    | HEvent.endTag b =>
      rw [runFrom_cons]
      match o, hwf with
      | 0, hwf =>
        rw [wfRun_endTag_zero] at hwf
        exact Option.noConfusion hwf
      | o4 + 1, hwf =>
        rw [wfRun_endTag_succ] at hwf
        have htl : tl ≠ [] := by
          intro hbad
          rw [hanc, hbad] at hl
          simp at hl
        rw [hstep_endTag_eq hs b p tl hanc]
        refine ih o4 o2 hwf _ ?_ ?_
        · show tl.length = o4 + 1
          rw [hanc, List.length_cons] at hl
          omega
        · show tl.getLast? = some 0
          rw [hanc, getLast?_cons_of_ne_nil _ _ htl] at hg
          exact hg
    | HEvent.text v =>
      have hanc2 : (Handler.hstep hs (HEvent.text v)).ancestry = hs.ancestry :=
        hstep_data_anc hs _ (by intro a b c h; cases h) (by intro b h; cases h)
      exact ih o o2 hwf (Handler.hstep hs (HEvent.text v))
        (by rw [hanc2]; exact hl) (by rw [hanc2]; exact hg)
    | HEvent.comment v =>
      have hanc2 : (Handler.hstep hs (HEvent.comment v)).ancestry = hs.ancestry :=
        hstep_data_anc hs _ (by intro a b c h; cases h) (by intro b h; cases h)
      exact ih o o2 hwf (Handler.hstep hs (HEvent.comment v))
        (by rw [hanc2]; exact hl) (by rw [hanc2]; exact hg)
    | HEvent.cdata v =>
      have hanc2 : (Handler.hstep hs (HEvent.cdata v)).ancestry = hs.ancestry :=
        hstep_data_anc hs _ (by intro a b c h; cases h) (by intro b h; cases h)
      exact ih o o2 hwf (Handler.hstep hs (HEvent.cdata v))
        (by rw [hanc2]; exact hl) (by rw [hanc2]; exact hg)
    | HEvent.declaration v =>
      have hanc2 : (Handler.hstep hs (HEvent.declaration v)).ancestry = hs.ancestry :=
        hstep_data_anc hs _ (by intro a b c h; cases h) (by intro b h; cases h)
      exact ih o o2 hwf (Handler.hstep hs (HEvent.declaration v))
        (by rw [hanc2]; exact hl) (by rw [hanc2]; exact hg)
    | HEvent.directive v =>
      have hanc2 : (Handler.hstep hs (HEvent.directive v)).ancestry = hs.ancestry :=
        hstep_data_anc hs _ (by intro a b c h; cases h) (by intro b h; cases h)
      exact ih o o2 hwf (Handler.hstep hs (HEvent.directive v))
        (by rw [hanc2]; exact hl) (by rw [hanc2]; exact hg)

/-! ## Claim C7 -/

theorem run_append (xs ys : List HEvent) :
    Handler.run (xs ++ ys) = Handler.runFrom (Handler.run xs) ys := by
  rw [Handler.run, Handler.run, Handler.runFrom, List.foldl_append]

/-- The semantic trace the Parser hands to the Handler after end-of-input
processing is balanced: starting from zero open tags it ends at zero. -/
theorem parser_trace_balanced (dec : String → Option String)
    (buffer : List Char) (pevs : List PEvent) :
    wfRun 0 (Parser.onEnd (Parser.run dec buffer pevs)).events = some 0 := by
  show wfRun 0 ((Parser.run dec buffer pevs).events
      ++ List.replicate (Parser.run dec buffer pevs).stack.length
           (HEvent.endTag false)) = some 0
  rw [wfRun_append, (pinv_run dec buffer pevs).bal]
  show wfRun (Parser.run dec buffer pevs).stack.length _ = _
  simpa using wfRun_replicate_false (Parser.run dec buffer pevs).stack.length 0

/-- C7: `Parser.onEnd` closes every tag still on the open stack with the
implicit flag (one implicit end-tag event per entry, top first), leaving
the stack empty; the resulting semantic trace is balanced down to zero, so
the tree builder finishes with only the document root open — the produced
tree is fully closed for every input event sequence. -/
theorem C7_end_of_input_force_close :
    (∀ ps : ParserState,
        (Parser.onEnd ps).stack = []
      ∧ (Parser.onEnd ps).events
          = ps.events ++ List.replicate ps.stack.length (HEvent.endTag false))
  ∧ (∀ (dec : String → Option String) (buffer : List Char) (pevs : List PEvent),
        wfRun 0 (Parser.onEnd (Parser.run dec buffer pevs)).events = some 0)
  ∧ (∀ (dec : String → Option String) (buffer : List Char) (pevs : List PEvent),
        (Handler.run (Parser.onEnd (Parser.run dec buffer pevs)).events).ancestry
          = [0]) := by
  refine ⟨fun ps => ⟨rfl, rfl⟩, parser_trace_balanced, ?_⟩
  intro dec buffer pevs
  have h := anc_shape (Parser.onEnd (Parser.run dec buffer pevs)).events 0 0
    (parser_trace_balanced dec buffer pevs) Handler.init (by rfl) (by rfl)
  obtain ⟨hl, hg⟩ := h
  show (Handler.runFrom Handler.init _).ancestry = [0]
  match hanc : (Handler.runFrom Handler.init
      (Parser.onEnd (Parser.run dec buffer pevs)).events).ancestry, hl, hg with
  | [a], hl, hg =>
    simp only [List.getLast?_singleton, Option.some.injEq] at hg
    rw [hg]

/-! ## Claim C10 -/

/-- C10: start-tag names are lowercased before being stored and pushed,
while end-tag names are compared raw; stack entries therefore never
contain an uppercase ASCII letter, so an end tag whose source text has an
uppercase letter matches nothing and is dropped with the parser state
unchanged — in particular lexing the markup of a div element closed by an
uppercase DIV end tag leaves the div still open. -/
theorem C10_uppercase_end_tag_dropped :
    (∀ (ps : ParserState) (s e : Nat),
       (Parser.onStartTagName ps s e).tagName
         = some (jsToLower (Parser.slice ps s e)))
  ∧ (∀ (dec : String → Option String) (buffer : List Char)
       (pevs : List PEvent) (s e : Nat),
       (∃ c ∈ (Parser.slice (Parser.run dec buffer pevs) s e).data,
          c.isUpper = true) →
       Parser.onEndTagName (Parser.run dec buffer pevs) s e
         = Parser.run dec buffer pevs)
  ∧ (Lexer.write dec0 "<div></DIV>" (Lexer.init "<div></DIV>".data)).ps.stack
      = ["div"] := by
  refine ⟨fun ps s e => rfl, ?_, rfl⟩
  intro dec buffer pevs s e hup
  obtain ⟨c, hc, hcu⟩ := hup
  have hinv := pinv_run dec buffer pevs
  rw [Parser.onEndTagName]
  by_cases h1 : emptyElements.contains (Parser.slice (Parser.run dec buffer pevs) s e)
  · rw [if_pos h1]
  · rw [if_neg h1]
    have hnm : Parser.slice (Parser.run dec buffer pevs) s e
        ∉ (Parser.run dec buffer pevs).stack := by
      intro hm
      have hfalse := hinv.stackLower _ hm c hc
      rw [hcu] at hfalse
      exact Bool.noConfusion hfalse
    rw [if_pos (distanceFromTop_of_not_mem _ _ hnm)]

theorem C10_uppercase_end_tag_dropped_witness :
    (∃ c ∈ (Parser.slice (Parser.run dec0 "divDIV".data
        [PEvent.startTagName 0 3, PEvent.startTagClose]) 3 6).data,
       c.isUpper = true)
  ∧ Parser.onEndTagName (Parser.run dec0 "divDIV".data
        [PEvent.startTagName 0 3, PEvent.startTagClose]) 3 6
      = Parser.run dec0 "divDIV".data
          [PEvent.startTagName 0 3, PEvent.startTagClose] :=
  ⟨by decide,
   C10_uppercase_end_tag_dropped.2.1 dec0 "divDIV".data
     [PEvent.startTagName 0 3, PEvent.startTagClose] 3 6 (by decide)⟩

/-! ## Claim C2, amended part -/

theorem runFrom_nil_anc (evs : List HEvent) : ∀ hs : HandlerState,
    hs.ancestry = [] → Handler.runFrom hs evs = hs := by
  induction evs with
  | nil => intro hs h; rfl
  | cons e rest ih =>
    intro hs h
    rw [runFrom_cons, hstep_nil hs e h]
    exact ih hs h

/-- C2 amended: tags in the void-element set are never pushed onto the
open-tag stack and a tag reported self-closing by the Parser keeps an
empty children sequence forever and never appears on the ancestry; but
the explicit self-closing marker from the Lexer is dropped — the Parser
class implements no handler for it — so only the void classification
decides, and a non-void tag written with the marker is pushed normally
(see the counterexample). -/
theorem C2_void_classification :
    (∀ (dec : String → Option String) (ps : ParserState),
       Parser.pstep dec ps PEvent.selfClosingTag = ps)
  ∧ (∀ (dec : String → Option String) (buffer : List Char)
       (pevs : List PEvent),
       ∀ nm ∈ (Parser.run dec buffer pevs).stack,
         emptyElements.contains nm = false)
  ∧ (∀ (pre post : List HEvent) (name : String)
       (attrs : List (String × String)),
       ((Handler.run (pre ++ HEvent.startTag name attrs true :: post)).store.nodes
           (Handler.run pre).store.size).children = []
     ∧ (Handler.run pre).store.size
         ∉ (Handler.run (pre ++ HEvent.startTag name attrs true :: post)).ancestry) := by
  refine ⟨fun dec ps => rfl, fun dec buffer pevs => (pinv_run dec buffer pevs).stackNonVoid, ?_⟩
  intro pre post name attrs
  have hsplit : Handler.run (pre ++ HEvent.startTag name attrs true :: post)
      = Handler.runFrom
          (Handler.hstep (Handler.run pre) (HEvent.startTag name attrs true)) post := by
    rw [run_append, runFrom_cons]
  rw [hsplit]
  have hf := hframe_run pre
  obtain hanc | ⟨p, rest, hanc⟩ :
      (Handler.run pre).ancestry = []
    ∨ ∃ p rest, (Handler.run pre).ancestry = p :: rest := by
    cases (Handler.run pre).ancestry with
    | nil => exact Or.inl rfl
    | cons p rest => exact Or.inr ⟨p, rest, rfl⟩
  · rw [hstep_nil _ _ hanc, runFrom_nil_anc post _ hanc]
    refine ⟨hf.highBlank _ (le_refl _), ?_⟩
    rw [hanc]
    simp
  · rw [hstep_startTag_eq _ name attrs true p rest hanc]
    have hp : p < (Handler.run pre).store.size := hf.ancLt p (by rw [hanc]; simp)
    obtain ⟨hsize, hch⟩ := createdState_facts (Handler.run pre)
      { type := "tag", name := some name, attributes := Handler.groupAttrs attrs }
      (!true) p rfl hp
    have hanc1 : (createdState (Handler.run pre)
        { type := "tag", name := some name, attributes := Handler.groupAttrs attrs }
        (!true) p).ancestry = (Handler.run pre).ancestry := rfl
    have hnotin : (Handler.run pre).store.size
        ∉ (createdState (Handler.run pre)
            { type := "tag", name := some name, attributes := Handler.groupAttrs attrs }
            (!true) p).ancestry := by
      rw [hanc1]
      intro hmem
      have := hf.ancLt _ hmem
      omega
    have hch0 : ((createdState (Handler.run pre)
        { type := "tag", name := some name, attributes := Handler.groupAttrs attrs }
        (!true) p).store.nodes (Handler.run pre).store.size).children = [] := by
      rw [hch, if_neg (by omega), if_pos rfl]
    have hfr1 : HFrame (createdState (Handler.run pre)
        { type := "tag", name := some name, attributes := Handler.groupAttrs attrs }
        (!true) p) := by
      have := (hframe_step (Handler.run pre) (HEvent.startTag name attrs true) hf).1
      rw [hstep_startTag_eq _ name attrs true p rest hanc] at this
      exact this
    obtain ⟨-, hfold⟩ := hframe_fold post _ hfr1
    obtain ⟨hc, hn⟩ := hfold _ hnotin (by omega)
    exact ⟨by rw [hc, hch0], hn⟩

/-! ## Ghost forest lemmas -/

theorem flatT_ne_nil (τ : RoseT) : flatT τ ≠ [] := by
  match τ with
  | .node i ks => rw [flatT]; exact List.cons_ne_nil i (flatF ks)

theorem flatF_append (ks ls : List RoseT) :
    flatF (ks ++ ls) = flatF ks ++ flatF ls := by
  induction ks with
  | nil => rw [List.nil_append, flatF, List.nil_append]
  | cons t ts ih =>
    rw [List.cons_append, flatF, flatF, ih, List.append_assoc]

theorem root_mem_flatT (τ : RoseT) : RoseT.root τ ∈ flatT τ := by
  match τ with
  | .node i ks => rw [flatT, RoseT.root]; exact List.mem_cons_self i _

theorem flatT_length_le_of_mem (τ : RoseT) (ks : List RoseT) (h : τ ∈ ks) :
    (flatT τ).length ≤ (flatF ks).length := by
  induction ks with
  | nil => simp at h
  | cons t ts ih =>
    rw [flatF, List.length_append]
    rcases List.mem_cons.mp h with h1 | h1
    · rw [h1]; omega
    · have := ih h1; omega

mutual

theorem subtreeOK_congr (st st2 : Store) : ∀ τ : RoseT,
    (∀ i ∈ flatT τ, (st2.nodes i).children = (st.nodes i).children
      ∧ (st2.nodes i).tail = (st.nodes i).tail) →
    subtreeOK st τ → subtreeOK st2 τ
  | .node r ks, hpres, hok => by
    rw [subtreeOK] at hok ⊢
    obtain ⟨hc, ht, hf⟩ := hok
    have hr := hpres r (by rw [flatT]; exact List.mem_cons_self r _)
    refine ⟨by rw [hr.1, hc], by rw [hr.2, ht], ?_⟩
    exact forestOK_congr st st2 ks
      (fun i hi => hpres i (by rw [flatT]; exact List.mem_cons_of_mem _ hi)) hf

theorem forestOK_congr (st st2 : Store) : ∀ ks : List RoseT,
    (∀ i ∈ flatF ks, (st2.nodes i).children = (st.nodes i).children
      ∧ (st2.nodes i).tail = (st.nodes i).tail) →
    forestOK st ks → forestOK st2 ks
  | [], _, _ => trivial
  | t :: ts, hpres, hok => by
    rw [forestOK] at hok ⊢
    refine ⟨?_, ?_⟩
    · exact subtreeOK_congr st st2 t
        (fun i hi => hpres i (by rw [flatF]; exact List.mem_append_left _ hi)) hok.1
    · exact forestOK_congr st st2 ts
        (fun i hi => hpres i (by rw [flatF]; exact List.mem_append_right _ hi)) hok.2

end

theorem forestOK_append (st : Store) (ks ls : List RoseT) :
    forestOK st (ks ++ ls) ↔ forestOK st ks ∧ forestOK st ls := by
  induction ks with
  | nil => rw [List.nil_append, forestOK]; exact ⟨fun h => ⟨trivial, h⟩, fun h => h.2⟩
  | cons t ts ih =>
    rw [List.cons_append, forestOK, forestOK, ih, and_assoc]

theorem forestOK_mem (st : Store) (ks : List RoseT) (τ : RoseT)
    (h : τ ∈ ks) (hok : forestOK st ks) : subtreeOK st τ := by
  induction ks with
  | nil => simp at h
  | cons t ts ih =>
    rw [forestOK] at hok
    rcases List.mem_cons.mp h with h1 | h1
    · rw [h1]; exact hok.1
    · exact ih h1 hok.2

theorem spineFromOK_congr (st st2 : Store) (rest : List (Nat × List RoseT)) :
    ∀ t : Nat,
    (∀ i ∈ flatZ rest, (st2.nodes i).children = (st.nodes i).children
      ∧ (st2.nodes i).tail = (st.nodes i).tail) →
    spineFromOK st t rest → spineFromOK st2 t rest := by
  induction rest with
  | nil => intro t _ h; exact h
  | cons e zr ih =>
    intro t hpres h
    obtain ⟨p, ps2⟩ := e
    rw [spineFromOK] at h ⊢
    obtain ⟨⟨hc, ht, hf⟩, hrest⟩ := h
    have hmemz : ∀ i ∈ flatZ zr, i ∈ flatZ ((p, ps2) :: zr) := by
      intro i hi
      rw [flatZ]
      exact List.mem_append_left _ hi
    have hp : p ∈ flatZ ((p, ps2) :: zr) := by
      rw [flatZ]
      exact List.mem_append_right _ (List.mem_cons_self _ _)
    have hks : ∀ i ∈ flatF ps2, i ∈ flatZ ((p, ps2) :: zr) := by
      intro i hi
      rw [flatZ]
      exact List.mem_append_right _ (List.mem_cons_of_mem _ hi)
    refine ⟨⟨?_, ?_, ?_⟩, ?_⟩
    · rw [(hpres p hp).1, hc]
    · rw [(hpres p hp).2, ht]
    · exact forestOK_congr st st2 ps2 (fun i hi => hpres i (hks i hi)) hf
    · exact ih p (fun i hi => hpres i (hmemz i hi)) hrest

theorem spineFrom_fst_tail_none (st : Store) (rest : List (Nat × List RoseT)) :
    ∀ t : Nat, spineFromOK st t rest →
    ∀ i ∈ rest.map Prod.fst, (st.nodes i).tail = none := by
  induction rest with
  | nil => intro t h i hi; simp at hi
  | cons e zr ih =>
    intro t h i hi
    obtain ⟨p, ps2⟩ := e
    rw [spineFromOK] at h
    obtain ⟨⟨-, ht, -⟩, h2⟩ := h
    rw [List.map_cons] at hi
    rcases List.mem_cons.mp hi with h1 | h1
    · rw [h1]; exact ht
    · exact ih p h2 i h1

theorem spine_fst_tail_none (st : Store) (z : List (Nat × List RoseT))
    (hsp : spineOK st z) : ∀ i ∈ z.map Prod.fst, (st.nodes i).tail = none := by
  match z with
  | [] => exact absurd hsp (by rw [spineOK]; exact fun h => h)
  | top :: rest =>
    rw [spineOK] at hsp
    obtain ⟨⟨-, htop, -⟩, hfrom⟩ := hsp
    intro i hi
    rw [List.map_cons] at hi
    rcases List.mem_cons.mp hi with h1 | h1
    · rw [h1]; exact htop
    · exact spineFrom_fst_tail_none st rest top.1 hfrom i h1

theorem setN_tail_update_tail (st : Store) (i : Nat) (tl : Option Nat) (j : Nat) :
    ((st.setN i { st.nodes i with tail := tl }).nodes j).tail
      = if j = i then tl else (st.nodes j).tail := by
  rw [setN_field_tail]

theorem setN_tail_update_next (st : Store) (i : Nat) (tl : Option Nat) (j : Nat) :
    ((st.setN i { st.nodes i with tail := tl }).nodes j).next
      = (st.nodes j).next :=
  setN_pres_next st i { st.nodes i with tail := tl } rfl j

theorem createdState_tail (hs : HandlerState) (nd : DNode) (push : Bool)
    (p : Nat) (j : Nat) :
    ((createdState hs nd push p).store.nodes j).tail
      = if j = hs.store.size then nd.tail else (hs.store.nodes j).tail := by
  show ((Node.link (hs.store.push nd) hs.store.size p hs.previous).nodes j).tail = _
  rw [link_tail, Store.nodes_push, apply_ite DNode.tail]

theorem createdState_next (hs : HandlerState) (nd : DNode) (push : Bool)
    (p : Nat) (j : Nat) :
    ((createdState hs nd push p).store.nodes j).next
      = if j = hs.previous then some hs.store.size
        else if j = hs.store.size then nd.next else (hs.store.nodes j).next := by
  show ((Node.link (hs.store.push nd) hs.store.size p hs.previous).nodes j).next = _
  rw [link_next, Store.nodes_push, apply_ite DNode.next]

theorem flatF_singleton (τ : RoseT) : flatF [τ] = flatT τ := by
  rw [flatF, flatF, List.append_nil]

theorem flatF_ne_nil (ks : List RoseT) (h : ks ≠ []) : flatF ks ≠ [] := by
  match ks with
  | [] => exact absurd rfl h
  | k :: ks' =>
    rw [flatF]
    intro hbad
    exact flatT_ne_nil k (List.append_eq_nil.mp hbad).1

/-- The value `onEndTag` stores as tail equals the last entry of the
flattening of the finished child forest. -/
theorem tailCompute_eq (hs : HandlerState) (t : Nat) (ks : List RoseT)
    (hct : (hs.store.nodes t).children = ks.map RoseT.root)
    (hfk : forestOK hs.store ks) :
    tailCompute hs t = (flatF ks).getLast? := by
  rw [tailCompute, hct]
  rcases List.eq_nil_or_concat ks with rfl | ⟨ks', τL, rfl⟩
  · rw [flatF]
    rfl
  · have hconc : ks'.concat τL = ks' ++ [τL] := List.concat_eq_append _ _
    rw [hconc] at hct hfk ⊢
    obtain ⟨r, kids⟩ := τL
    have hsub : subtreeOK hs.store (RoseT.node r kids) :=
      forestOK_mem _ _ _ (by simp) hfk
    rw [subtreeOK] at hsub
    obtain ⟨-, htr, -⟩ := hsub
    rw [List.map_append, List.map_cons, List.map_nil, List.getLast?_concat]
    show some (((hs.store.nodes (RoseT.root (RoseT.node r kids))).tail).getD
      (RoseT.root (RoseT.node r kids))) = _
    rw [RoseT.root]
    have hr : flatF (ks' ++ [RoseT.node r kids]) = flatF ks' ++ (r :: flatF kids) := by
      rw [flatF_append, flatF_singleton, flatT]
    rw [hr, List.getLast?_append]
    cases hkid : flatF kids with
    | nil =>
      rw [hkid] at htr
      rw [htr]
      simp
    | cons x xs =>
      rw [hkid] at htr
      obtain ⟨y, hy⟩ : ∃ y, (x :: xs).getLast? = some y :=
        ⟨_, List.getLast?_eq_getLast (x :: xs) (by simp)⟩
      rw [htr, hy, List.getLast?_cons_cons, hy]
      rfl

/-! ## Simulation step lemmas -/

theorem hinv_leaf (hs : HandlerState) (t : Nat) (ks : List RoseT)
    (zrest : List (Nat × List RoseT)) (nd : DNode)
    (hinv : HInv hs ((t, ks) :: zrest))
    (hndc : nd.children = []) (hndt : nd.tail = none) (hndn : nd.next = none) :
    HInv (createdState hs nd false t)
      ((t, ks ++ [RoseT.node hs.store.size []]) :: zrest) := by
  obtain ⟨hanc, hsp, hflat, hprev, hnextc, hnextl⟩ := hinv
  rw [spineOK] at hsp
  obtain ⟨hentry, hfrom⟩ := hsp
  rw [spineEntryOK] at hentry
  obtain ⟨hct, htt, hfk⟩ := hentry
  have hmem : ∀ i, i ∈ flatZ ((t, ks) :: zrest) ↔ i < hs.store.size := by
    rw [hflat]; intro i; exact List.mem_range
  have htlt : t < hs.store.size := by
    refine (hmem t).mp ?_
    rw [flatZ]
    exact List.mem_append_right _ (List.mem_cons_self _ _)
  have hndup : (flatZ zrest ++ t :: flatF ks).Nodup := by
    have h2 := hflat
    rw [flatZ] at h2
    rw [h2]
    exact List.nodup_range _
  obtain ⟨hnd1, hnd2, hdisj⟩ := List.nodup_append.mp hndup
  have htks : t ∉ flatF ks := (List.nodup_cons.mp hnd2).1
  have htzr : t ∉ flatZ zrest := fun h => hdisj h (List.mem_cons_self _ _)
  obtain ⟨hsize2, hch2⟩ := createdState_facts hs nd false t hndc htlt
  have htl2 := createdState_tail hs nd false t
  have hnx2 := createdState_next hs nd false t
  have hpres : ∀ i, i < hs.store.size → i ≠ t →
      ((createdState hs nd false t).store.nodes i).children
        = (hs.store.nodes i).children
    ∧ ((createdState hs nd false t).store.nodes i).tail
        = (hs.store.nodes i).tail := by
    intro i h1 h2
    constructor
    · rw [hch2, if_neg h2, if_neg (by omega)]
    · rw [htl2, if_neg (by omega)]
  have hchT : ((createdState hs nd false t).store.nodes t).children
      = ks.map RoseT.root ++ [hs.store.size] := by
    rw [hch2, if_pos rfl]
    rw [show (hs.store.nodes t).children = ks.map RoseT.root from by
      rw [hct, List.append_nil]]
  refine ⟨?_, ?_, ?_, ?_, ?_, ?_⟩
  · show hs.ancestry = _
    rw [hanc]
    rfl
  · rw [spineOK]
    refine ⟨?_, ?_⟩
    · rw [spineEntryOK]
      refine ⟨?_, ?_, ?_⟩
      · show _ = (ks ++ [RoseT.node hs.store.size []]).map RoseT.root ++ []
        rw [hchT, List.map_append, List.map_cons, List.map_nil, List.append_nil]
        rfl
      · rw [htl2, if_neg (by omega)]
        exact htt
      · rw [forestOK_append]
        refine ⟨?_, ?_⟩
        · refine forestOK_congr hs.store _ ks ?_ hfk
          intro i hi
          have hilt : i < hs.store.size := (hmem i).mp (by
            rw [flatZ]
            exact List.mem_append_right _ (List.mem_cons_of_mem _ hi))
          exact hpres i hilt (fun he => htks (he ▸ hi))
        · rw [forestOK, subtreeOK]
          refine ⟨⟨?_, ?_, trivial⟩, trivial⟩
          · rw [hch2, if_neg (by omega), if_pos rfl]
            rfl
          · rw [htl2, if_pos rfl, hndt]
            rfl
    · refine spineFromOK_congr hs.store _ zrest t ?_ hfrom
      intro i hi
      have hilt : i < hs.store.size := (hmem i).mp (by
        rw [flatZ]
        exact List.mem_append_left _ hi)
      exact hpres i hilt (fun he => htzr (he ▸ hi))
  · show flatZ zrest ++ t :: flatF (ks ++ [RoseT.node hs.store.size []]) = _
    rw [hsize2, flatF_append, flatF_singleton, flatT, flatF, List.range_succ]
    have hflat2 : flatZ zrest ++ t :: flatF ks = List.range hs.store.size := hflat
    rw [show t :: (flatF ks ++ [hs.store.size])
        = (t :: flatF ks) ++ [hs.store.size] from rfl]
    rw [← List.append_assoc, hflat2]
  · show hs.store.size + 1 = _
    rw [hsize2]
  · intro i hi
    rw [hsize2] at hi
    show ((createdState hs nd false t).store.nodes i).next = some (i + 1)
    rw [hnx2]
    by_cases hip : i = hs.previous
    · rw [if_pos hip]
      congr 1
      omega
    · rw [if_neg hip, if_neg (by omega)]
      exact hnextc i (by omega)
  · show ((createdState hs nd false t).store.nodes
        ((createdState hs nd false t).store.size - 1)).next = none
    rw [hsize2, Nat.add_sub_cancel, hnx2, if_neg (by omega), if_pos rfl]
    exact hndn

theorem hinv_push (hs : HandlerState) (t : Nat) (ks : List RoseT)
    (zrest : List (Nat × List RoseT)) (nd : DNode)
    (hinv : HInv hs ((t, ks) :: zrest))
    (hndc : nd.children = []) (hndt : nd.tail = none) (hndn : nd.next = none) :
    HInv (createdState hs nd true t)
      ((hs.store.size, []) :: (t, ks) :: zrest) := by
  obtain ⟨hanc, hsp, hflat, hprev, hnextc, hnextl⟩ := hinv
  rw [spineOK] at hsp
  obtain ⟨hentry, hfrom⟩ := hsp
  rw [spineEntryOK] at hentry
  obtain ⟨hct, htt, hfk⟩ := hentry
  have hmem : ∀ i, i ∈ flatZ ((t, ks) :: zrest) ↔ i < hs.store.size := by
    rw [hflat]; intro i; exact List.mem_range
  have htlt : t < hs.store.size := by
    refine (hmem t).mp ?_
    rw [flatZ]
    exact List.mem_append_right _ (List.mem_cons_self _ _)
  have hndup : (flatZ zrest ++ t :: flatF ks).Nodup := by
    have h2 := hflat
    rw [flatZ] at h2
    rw [h2]
    exact List.nodup_range _
  obtain ⟨hnd1, hnd2, hdisj⟩ := List.nodup_append.mp hndup
  have htks : t ∉ flatF ks := (List.nodup_cons.mp hnd2).1
  have htzr : t ∉ flatZ zrest := fun h => hdisj h (List.mem_cons_self _ _)
  obtain ⟨hsize2, hch2⟩ := createdState_facts hs nd true t hndc htlt
  have htl2 := createdState_tail hs nd true t
  have hnx2 := createdState_next hs nd true t
  have hpres : ∀ i, i < hs.store.size → i ≠ t →
      ((createdState hs nd true t).store.nodes i).children
        = (hs.store.nodes i).children
    ∧ ((createdState hs nd true t).store.nodes i).tail
        = (hs.store.nodes i).tail := by
    intro i h1 h2
    constructor
    · rw [hch2, if_neg h2, if_neg (by omega)]
    · rw [htl2, if_neg (by omega)]
  refine ⟨?_, ?_, ?_, ?_, ?_, ?_⟩
  · show hs.store.size :: hs.ancestry = _
    rw [hanc]
    rfl
  · rw [spineOK]
    refine ⟨?_, ?_⟩
    · rw [spineEntryOK]
      refine ⟨?_, ?_, trivial⟩
      · show _ = ([] : List RoseT).map RoseT.root ++ []
        rw [hch2, if_neg (by omega), if_pos rfl]
        rfl
      · rw [htl2, if_pos rfl]
        exact hndt
    · rw [spineFromOK]
      refine ⟨?_, ?_⟩
      · rw [spineEntryOK]
        refine ⟨?_, ?_, ?_⟩
        · rw [hch2, if_pos rfl]
          rw [show (hs.store.nodes t).children = ks.map RoseT.root from by
            rw [hct, List.append_nil]]
        · rw [htl2, if_neg (by omega)]
          exact htt
        · refine forestOK_congr hs.store _ ks ?_ hfk
          intro i hi
          have hilt : i < hs.store.size := (hmem i).mp (by
            rw [flatZ]
            exact List.mem_append_right _ (List.mem_cons_of_mem _ hi))
          exact hpres i hilt (fun he => htks (he ▸ hi))
      · refine spineFromOK_congr hs.store _ zrest t ?_ hfrom
        intro i hi
        have hilt : i < hs.store.size := (hmem i).mp (by
          rw [flatZ]
          exact List.mem_append_left _ hi)
        exact hpres i hilt (fun he => htzr (he ▸ hi))
  · show flatZ ((t, ks) :: zrest) ++ hs.store.size :: flatF [] = _
    rw [hsize2, flatF, List.range_succ, hflat]
  · show hs.store.size + 1 = _
    rw [hsize2]
  · intro i hi
    rw [hsize2] at hi
    show ((createdState hs nd true t).store.nodes i).next = some (i + 1)
    rw [hnx2]
    by_cases hip : i = hs.previous
    · rw [if_pos hip]
      congr 1
      omega
    · rw [if_neg hip, if_neg (by omega)]
      exact hnextc i (by omega)
  · show ((createdState hs nd true t).store.nodes
        ((createdState hs nd true t).store.size - 1)).next = none
    rw [hsize2, Nat.add_sub_cancel, hnx2, if_neg (by omega), if_pos rfl]
    exact hndn

theorem hinv_pop (hs : HandlerState) (b : Bool) (t p : Nat) (ks ps2 : List RoseT)
    (zrest : List (Nat × List RoseT))
    (hinv : HInv hs ((t, ks) :: (p, ps2) :: zrest)) :
    HInv (Handler.hstep hs (HEvent.endTag b))
      ((p, ps2 ++ [RoseT.node t ks]) :: zrest) := by
  obtain ⟨hanc, hsp, hflat, hprev, hnextc, hnextl⟩ := hinv
  rw [spineOK] at hsp
  obtain ⟨hentryT, hfromT⟩ := hsp
  rw [spineEntryOK] at hentryT
  obtain ⟨hct, htt, hfk⟩ := hentryT
  rw [spineFromOK] at hfromT
  obtain ⟨hentryP, hfromP⟩ := hfromT
  rw [spineEntryOK] at hentryP
  obtain ⟨hcp, htp, hfp⟩ := hentryP
  have heq := hstep_endTag_eq hs b t (List.map Prod.fst ((p, ps2) :: zrest)) hanc
  rw [heq]
  have hchE := setN_tail_update_children hs.store t (tailCompute hs t)
  have htlE := setN_tail_update_tail hs.store t (tailCompute hs t)
  have hnxE := setN_tail_update_next hs.store t (tailCompute hs t)
  have hndup : ((flatZ zrest ++ p :: flatF ps2) ++ t :: flatF ks).Nodup := by
    have h2 := hflat
    rw [flatZ, flatZ] at h2
    rw [h2]
    exact List.nodup_range _
  obtain ⟨hndA, hndT, hdisj⟩ := List.nodup_append.mp hndup
  have htks : t ∉ flatF ks := (List.nodup_cons.mp hndT).1
  have htA : t ∉ flatZ zrest ++ p :: flatF ps2 := by
    intro hbad
    exact hdisj hbad (List.mem_cons_self _ _)
  have htzr : t ∉ flatZ zrest := fun h => htA (List.mem_append_left _ h)
  have htp2 : t ≠ p := by
    intro he
    exact htA (List.mem_append_right _ (he ▸ List.mem_cons_self _ _))
  have htps : t ∉ flatF ps2 := fun h =>
    htA (List.mem_append_right _ (List.mem_cons_of_mem _ h))
  have hctS : (hs.store.nodes t).children = ks.map RoseT.root := by
    rw [hct, List.append_nil]
  have htc : tailCompute hs t = (flatF ks).getLast? :=
    tailCompute_eq hs t ks hctS hfk
  have hpres : ∀ i, i ≠ t →
      ((hs.store.setN t { hs.store.nodes t with
          tail := tailCompute hs t }).nodes i).children
        = (hs.store.nodes i).children
    ∧ ((hs.store.setN t { hs.store.nodes t with
          tail := tailCompute hs t }).nodes i).tail
        = (hs.store.nodes i).tail := by
    intro i h2
    exact ⟨hchE i, by rw [htlE, if_neg h2]⟩
  refine ⟨?_, ?_, ?_, ?_, ?_, ?_⟩
  · show List.map Prod.fst ((p, ps2) :: zrest) = _
    rfl
  · rw [spineOK]
    refine ⟨?_, ?_⟩
    · rw [spineEntryOK]
      refine ⟨?_, ?_, ?_⟩
      · show _ = (ps2 ++ [RoseT.node t ks]).map RoseT.root ++ []
        rw [hchE p, hcp, List.map_append, List.map_cons, List.map_nil,
          List.append_nil]
        rfl
      · rw [htlE, if_neg (fun he => htp2 he.symm)]
        exact htp
      · rw [forestOK_append]
        refine ⟨?_, ?_⟩
        · refine forestOK_congr hs.store _ ps2 ?_ hfp
          intro i hi
          exact hpres i (fun he => htps (he ▸ hi))
        · rw [forestOK, subtreeOK]
          refine ⟨⟨?_, ?_, ?_⟩, trivial⟩
          · rw [hchE t, hctS]
          · rw [htlE, if_pos rfl]
            exact htc
          · refine forestOK_congr hs.store _ ks ?_ hfk
            intro i hi
            exact hpres i (fun he => htks (he ▸ hi))
    · refine spineFromOK_congr hs.store _ zrest p ?_ hfromP
      intro i hi
      exact hpres i (fun he => htzr (he ▸ hi))
  · show flatZ zrest ++ p :: flatF (ps2 ++ [RoseT.node t ks]) = _
    rw [flatF_append, flatF_singleton, flatT]
    have hflat2 : (flatZ zrest ++ p :: flatF ps2) ++ t :: flatF ks
        = List.range hs.store.size := hflat
    show _ = List.range (hs.store.setN t _).size
    rw [Store.size_setN, ← hflat2]
    rw [show p :: (flatF ps2 ++ t :: flatF ks)
        = (p :: flatF ps2) ++ t :: flatF ks from rfl]
    rw [← List.append_assoc]
  · show hs.previous + 1 = (hs.store.setN t _).size
    rw [Store.size_setN]
    exact hprev
  · intro i hi
    rw [Store.size_setN] at hi
    show ((hs.store.setN t _).nodes i).next = some (i + 1)
    rw [hnxE]
    exact hnextc i hi
  · show ((hs.store.setN t _).nodes ((hs.store.setN t _).size - 1)).next = none
    rw [Store.size_setN, hnxE]
    exact hnextl


/-! ## Simulation: initial state and the fold -/

theorem hinv_init : HInv Handler.init [(0, [])] := by
  refine ⟨rfl, ⟨⟨rfl, rfl, trivial⟩, rfl⟩, by decide, rfl, ?_, rfl⟩
  intro i hi
  rw [show Handler.init.store.size = 1 from rfl] at hi
  omega

theorem hinv_fold (evs : List HEvent) : ∀ (o o2 : Nat),
    wfRun o evs = some o2 → ∀ (hs : HandlerState) (z : List (Nat × List RoseT)),
    HInv hs z → z.length = o + 1 →
    ∃ z2, HInv (Handler.runFrom hs evs) z2 ∧ z2.length = o2 + 1 := by
  induction evs with
  | nil =>
    intro o o2 hwf hs z hi hl
    cases hwf
    exact ⟨z, hi, hl⟩
  | cons e rest ih =>
    intro o o2 hwf hs z hi hl
    obtain ⟨t, ks, zrest, rfl⟩ : ∃ t ks zrest, z = (t, ks) :: zrest := by
      cases z with
      | nil =>
        have hsp := hi.sp
        rw [spineOK] at hsp
        exact hsp.elim
      | cons hd tl2 => exact ⟨hd.1, hd.2, tl2, rfl⟩
    have hanc : hs.ancestry = t :: List.map Prod.fst zrest := hi.anc
    cases e with
    | startTag name attrs sc =>
      rw [wfRun_startTag] at hwf
      rw [runFrom_cons, hstep_startTag_eq hs name attrs sc t (List.map Prod.fst zrest) hanc]
      cases sc with
      | false =>
        exact ih (o + 1) o2 hwf _ _
          (hinv_push hs t ks zrest _ hi rfl rfl rfl)
          (by simp only [List.length_cons] at hl ⊢; omega)
      | true =>
        exact ih o o2 hwf _ _
          (hinv_leaf hs t ks zrest _ hi rfl rfl rfl) hl
    | endTag b =>
      cases o with
      | zero =>
        rw [wfRun_endTag_zero] at hwf
        exact Option.noConfusion hwf
      | succ o4 =>
        rw [wfRun_endTag_succ] at hwf
        obtain ⟨p, ps2, zrest2, rfl⟩ : ∃ p ps2 zrest2, zrest = (p, ps2) :: zrest2 := by
          cases zrest with
          | nil =>
            exact absurd hl (by simp only [List.length_cons, List.length_nil]; omega)
          | cons hd tl2 => exact ⟨hd.1, hd.2, tl2, rfl⟩
        rw [runFrom_cons]
        exact ih o4 o2 hwf _ _ (hinv_pop hs b t p ks ps2 zrest2 hi)
          (by simp only [List.length_cons] at hl ⊢; omega)
    | text v =>
      rw [runFrom_cons, hstep_text_eq hs v t (List.map Prod.fst zrest) hanc]
      exact ih o o2 hwf _ _ (hinv_leaf hs t ks zrest _ hi rfl rfl rfl) hl
    | comment v =>
      rw [runFrom_cons, hstep_comment_eq hs v t (List.map Prod.fst zrest) hanc]
      exact ih o o2 hwf _ _ (hinv_leaf hs t ks zrest _ hi rfl rfl rfl) hl
    | cdata v =>
      rw [runFrom_cons, hstep_cdata_eq hs v t (List.map Prod.fst zrest) hanc]
      exact ih o o2 hwf _ _ (hinv_leaf hs t ks zrest _ hi rfl rfl rfl) hl
    | declaration v =>
      rw [runFrom_cons, hstep_declaration_eq hs v t (List.map Prod.fst zrest) hanc]
      exact ih o o2 hwf _ _ (hinv_leaf hs t ks zrest _ hi rfl rfl rfl) hl
    | directive v =>
      rw [runFrom_cons, hstep_directive_eq hs v t (List.map Prod.fst zrest) hanc]
      exact ih o o2 hwf _ _ (hinv_leaf hs t ks zrest _ hi rfl rfl rfl) hl

/-! ## Document-order extraction: walking next and flattening children -/

theorem walkNext_range (st : Store)
    (hc : ∀ i, i + 1 < st.size → (st.nodes i).next = some (i + 1))
    (hl : (st.nodes (st.size - 1)).next = none) :
    ∀ k i, i + k = st.size → walkNext st k i = List.range' i k := by
  intro k
  induction k with
  | zero => intro i _; rfl
  | succ k2 ih =>
    intro i hik
    rw [walkNext]
    cases k2 with
    | zero =>
      have hi : i = st.size - 1 := by omega
      rw [hi, hl]
      rfl
    | succ k3 =>
      rw [hc i (by omega)]
      show i :: walkNext st (k3 + 1) (i + 1) = List.range' i (k3 + 1 + 1)
      rw [ih (i + 1) (by omega)]
      rfl

mutual

theorem preorder_subtree (st : Store) : ∀ (τ : RoseT) (fuel : Nat),
    subtreeOK st τ → (flatT τ).length ≤ fuel →
    preorderAux st fuel (RoseT.root τ) = flatT τ
  | .node r ks, 0, _, hle => by
    rw [flatT, List.length_cons] at hle
    exact absurd hle (by omega)
  | .node r ks, f + 1, hok, hle => by
    rw [subtreeOK] at hok
    obtain ⟨hcℓ, -, hf⟩ := hok
    rw [preorderAux, RoseT.root, hcℓ, flatT, List.map_map]
    congr 1
    exact preorder_forest st ks f hf
      (by rw [flatT, List.length_cons] at hle; omega)

theorem preorder_forest (st : Store) : ∀ (ks : List RoseT) (f : Nat),
    forestOK st ks → (flatF ks).length ≤ f →
    (ks.map (fun κ => preorderAux st f (RoseT.root κ))).flatten = flatF ks
  | [], _, _, _ => rfl
  | κ :: ts, f, hok, hle => by
    rw [forestOK] at hok
    rw [List.map_cons, List.flatten_cons, flatF]
    rw [flatF, List.length_append] at hle
    congr 1
    · exact preorder_subtree st κ f hok.1 (by omega)
    · exact preorder_forest st ts f hok.2 (by omega)

end

/-- Over the trace the Parser hands in after end-of-input processing, the
zipper simulation collapses to the single document-root entry carrying the
finished child forest. -/
theorem final_zipper (dec : String → Option String) (buffer : List Char)
    (pevs : List PEvent) :
    ∃ ks : List RoseT,
      HInv (Handler.run (Parser.onEnd (Parser.run dec buffer pevs)).events)
        [(0, ks)] := by
  obtain ⟨z2, hinv, hlen⟩ := hinv_fold
    (Parser.onEnd (Parser.run dec buffer pevs)).events 0 0
    (parser_trace_balanced dec buffer pevs) Handler.init [(0, [])] hinv_init rfl
  cases z2 with
  | nil => exact absurd hlen (by decide)
  | cons hd tl =>
    cases tl with
    | cons hd2 tl2 =>
      exact absurd hlen (by simp only [List.length_cons]; omega)
    | nil =>
      obtain ⟨t, ks⟩ := hd
      have hsp := hinv.sp
      rw [spineOK] at hsp
      have ht : t = 0 := hsp.2
      subst ht
      exact ⟨ks, hinv⟩

/-! ## The document-order back pointers -/

theorem setN_field_previous (st : Store) (i : Nat) (v : DNode) (j : Nat) :
    ((st.setN i v).nodes j).previous
      = if j = i then v.previous else (st.nodes j).previous := by
  rw [Store.nodes_setN, apply_ite DNode.previous]

theorem linkParent_previous (st : Store) (n p : Nat) (j : Nat) :
    ((Node.linkParent st n p).nodes j).previous = (st.nodes j).previous := by
  rw [Node.linkParent, setN_field_previous]
  split
  · next h => subst h; rfl
  · rfl

theorem linkChildPush_previous (st : Store) (n p : Nat) (j : Nat) :
    ((Node.linkChildPush st n p).nodes j).previous = (st.nodes j).previous := by
  rw [Node.linkChildPush, setN_field_previous]
  split
  · next h => subst h; rfl
  · rfl

theorem linkPrevSibling_previous (st : Store) (n : Nat) (sib : Option Nat) (j : Nat) :
    ((Node.linkPrevSibling st n sib).nodes j).previous = (st.nodes j).previous := by
  rw [Node.linkPrevSibling, setN_field_previous]
  split
  · next h => subst h; rfl
  · rfl

theorem linkSibNext_previous (st : Store) (n : Nat) (sib : Option Nat) (j : Nat) :
    ((Node.linkSibNext st n sib).nodes j).previous = (st.nodes j).previous := by
  cases sib with
  | none => rfl
  | some q =>
    rw [Node.linkSibNext, setN_field_previous]
    split
    · next h => subst h; rfl
    · rfl

theorem linkPrevious_previous (st : Store) (n prev : Nat) (j : Nat) :
    ((Node.linkPrevious st n prev).nodes j).previous
      = if j = n then some prev else (st.nodes j).previous := by
  rw [Node.linkPrevious, setN_field_previous]

theorem linkNext_previous (st : Store) (n prev : Nat) (j : Nat) :
    ((Node.linkNext st n prev).nodes j).previous = (st.nodes j).previous := by
  rw [Node.linkNext, setN_field_previous]
  split
  · next h => subst h; rfl
  · rfl

theorem link_previous (st : Store) (n p prev : Nat) (j : Nat) :
    ((Node.link st n p prev).nodes j).previous
      = if j = n then some prev else (st.nodes j).previous := by
  show ((Node.linkNext _ n prev).nodes j).previous = _
  rw [linkNext_previous, linkPrevious_previous]
  split
  · rfl
  · rw [linkSibNext_previous, linkPrevSibling_previous, linkChildPush_previous,
        linkParent_previous]

theorem createdState_size (hs : HandlerState) (nd : DNode) (push : Bool)
    (p : Nat) :
    (createdState hs nd push p).store.size = hs.store.size + 1 := by
  show (Node.link (hs.store.push nd) hs.store.size p hs.previous).size = _
  rw [link_size, Store.size_push]

theorem createdState_previous (hs : HandlerState) (nd : DNode) (push : Bool)
    (p : Nat) (j : Nat) :
    ((createdState hs nd push p).store.nodes j).previous
      = if j = hs.store.size then some hs.previous
        else (hs.store.nodes j).previous := by
  show ((Node.link (hs.store.push nd) hs.store.size p hs.previous).nodes j).previous = _
  rw [link_previous]
  by_cases hj : j = hs.store.size
  · rw [if_pos hj, if_pos hj]
  · rw [if_neg hj, if_neg hj, Store.nodes_push, apply_ite DNode.previous,
        if_neg hj]

theorem setN_tail_update_previous (st : Store) (i : Nat) (tl : Option Nat) (j : Nat) :
    ((st.setN i { st.nodes i with tail := tl }).nodes j).previous
      = (st.nodes j).previous := by
  rw [setN_field_previous]
  split
  · next h => subst h; rfl
  · rfl

/-- The back pointers form the mirror chain: each allocated node except the
document root points back at its allocation predecessor. -/
def prevChain (hs : HandlerState) : Prop :=
  hs.previous + 1 = hs.store.size ∧
  ∀ i, i + 1 < hs.store.size → (hs.store.nodes (i + 1)).previous = some i

theorem prevChain_init : prevChain Handler.init := by
  refine ⟨rfl, ?_⟩
  intro i hi
  rw [show Handler.init.store.size = 1 from rfl] at hi
  omega

theorem createdState_prevChain (hs : HandlerState) (nd : DNode) (push : Bool)
    (p : Nat) (hpv : hs.previous + 1 = hs.store.size)
    (hch : ∀ i, i + 1 < hs.store.size →
      (hs.store.nodes (i + 1)).previous = some i) :
    prevChain (createdState hs nd push p) := by
  refine ⟨?_, ?_⟩
  · show hs.store.size + 1 = (createdState hs nd push p).store.size
    rw [createdState_size]
  intro i hi
  rw [createdState_size] at hi
  rw [createdState_previous]
  by_cases hj : i + 1 = hs.store.size
  · rw [if_pos hj]
    have hpi : hs.previous = i := by omega
    rw [hpi]
  · rw [if_neg hj]
    exact hch i (by omega)

theorem prevChain_step (hs : HandlerState) (e : HEvent) (h : prevChain hs) :
    prevChain (Handler.hstep hs e) := by
  obtain ⟨hpv, hch⟩ := h
  obtain hanc | ⟨p, rest, hanc⟩ :
      hs.ancestry = [] ∨ ∃ p rest, hs.ancestry = p :: rest := by
    cases hs.ancestry with
    | nil => exact Or.inl rfl
    | cons a b => exact Or.inr ⟨a, b, rfl⟩
  · rw [hstep_nil hs e hanc]
    exact ⟨hpv, hch⟩
  · cases e with
    | startTag name attrs sc =>
      rw [hstep_startTag_eq hs name attrs sc p rest hanc]
      exact createdState_prevChain hs _ _ p hpv hch
    | endTag b =>
      rw [hstep_endTag_eq hs b p rest hanc]
      refine ⟨by rw [Store.size_setN]; exact hpv, ?_⟩
      intro i hi
      rw [Store.size_setN] at hi
      rw [setN_tail_update_previous]
      exact hch i hi
    | text v =>
      rw [hstep_text_eq hs v p rest hanc]
      exact createdState_prevChain hs _ _ p hpv hch
    | comment v =>
      rw [hstep_comment_eq hs v p rest hanc]
      exact createdState_prevChain hs _ _ p hpv hch
    | cdata v =>
      rw [hstep_cdata_eq hs v p rest hanc]
      exact createdState_prevChain hs _ _ p hpv hch
    | declaration v =>
      rw [hstep_declaration_eq hs v p rest hanc]
      exact createdState_prevChain hs _ _ p hpv hch
    | directive v =>
      rw [hstep_directive_eq hs v p rest hanc]
      exact createdState_prevChain hs _ _ p hpv hch

theorem prevChain_fold (evs : List HEvent) : ∀ hs : HandlerState,
    prevChain hs → prevChain (Handler.runFrom hs evs) := by
  induction evs with
  | nil => intro hs h; exact h
  | cons e rest ih =>
    intro hs h
    exact ih _ (prevChain_step hs e h)

/-! ## Claim C8 -/

/-- C8: in every finished tree the `next` pointers, walked from the
document root, visit every allocated node exactly once in allocation
order, that order equals the depth-first flattening of the `children`
sequences rooted at the document (each parent immediately followed by its
first child), and the `previous` pointers form the mirror of the same
chain. -/
theorem C8_document_order_chain (dec : String → Option String)
    (buffer : List Char) (pevs : List PEvent) :
    walkNext (Handler.run (Parser.onEnd (Parser.run dec buffer pevs)).events).store
        (Handler.run (Parser.onEnd (Parser.run dec buffer pevs)).events).store.size 0
      = List.range
          (Handler.run (Parser.onEnd (Parser.run dec buffer pevs)).events).store.size
  ∧ preorderAux
        (Handler.run (Parser.onEnd (Parser.run dec buffer pevs)).events).store
        (Handler.run (Parser.onEnd (Parser.run dec buffer pevs)).events).store.size 0
      = List.range
          (Handler.run (Parser.onEnd (Parser.run dec buffer pevs)).events).store.size
  ∧ ∀ i, i + 1
        < (Handler.run (Parser.onEnd (Parser.run dec buffer pevs)).events).store.size →
      ((Handler.run
          (Parser.onEnd (Parser.run dec buffer pevs)).events).store.nodes i).next
          = some (i + 1)
      ∧ ((Handler.run
            (Parser.onEnd (Parser.run dec buffer pevs)).events).store.nodes
              (i + 1)).previous
          = some i := by
  obtain ⟨ks, hinv⟩ := final_zipper dec buffer pevs
  obtain ⟨hanc, hsp, hflat, hprev, hnextc, hnextl⟩ := hinv
  rw [spineOK] at hsp
  obtain ⟨hentry, -⟩ := hsp
  rw [spineEntryOK] at hentry
  obtain ⟨hch, -, hfok⟩ := hentry
  rw [List.append_nil] at hch
  have hflat2 : (0 : Nat) :: flatF ks
      = List.range (Handler.run
          (Parser.onEnd (Parser.run dec buffer pevs)).events).store.size := by
    have h0 := hflat
    rw [flatZ, flatZ, List.nil_append] at h0
    exact h0
  have hsz : (Handler.run
        (Parser.onEnd (Parser.run dec buffer pevs)).events).store.size
      = (flatF ks).length + 1 := by
    have hlen := congrArg List.length hflat2
    rw [List.length_cons, List.length_range] at hlen
    omega
  refine ⟨?_, ?_, ?_⟩
  · rw [walkNext_range _ hnextc hnextl _ 0 (Nat.zero_add _)]
    exact (List.range_eq_range' _).symm
  · rw [hsz, preorderAux, hch, List.map_map]
    have hfor := preorder_forest
      (Handler.run (Parser.onEnd (Parser.run dec buffer pevs)).events).store
      ks (flatF ks).length hfok (le_refl _)
    have hflat3 : (0 : Nat) :: flatF ks = List.range ((flatF ks).length + 1) := by
      rw [← hsz]
      exact hflat2
    exact (congrArg (List.cons 0) hfor).trans hflat3
  · intro i hi
    exact ⟨hnextc i hi,
      (prevChain_fold (Parser.onEnd (Parser.run dec buffer pevs)).events
        Handler.init prevChain_init).2 i hi⟩

theorem C8_document_order_chain_witness :
    0 + 1 < (Handler.run (Parser.onEnd (Parser.run dec0 "bx".data
        [PEvent.startTagName 0 1, PEvent.startTagClose, PEvent.text 1 2,
         PEvent.textEnd, PEvent.endTagName 0 1])).events).store.size
  ∧ ((Handler.run (Parser.onEnd (Parser.run dec0 "bx".data
        [PEvent.startTagName 0 1, PEvent.startTagClose, PEvent.text 1 2,
         PEvent.textEnd, PEvent.endTagName 0 1])).events).store.nodes 0).next
      = some 1
  ∧ ((Handler.run (Parser.onEnd (Parser.run dec0 "bx".data
        [PEvent.startTagName 0 1, PEvent.startTagClose, PEvent.text 1 2,
         PEvent.textEnd, PEvent.endTagName 0 1])).events).store.nodes 1).previous
      = some 0 :=
  ⟨by decide,
   (C8_document_order_chain dec0 "bx".data
      [PEvent.startTagName 0 1, PEvent.startTagClose, PEvent.text 1 2,
       PEvent.textEnd, PEvent.endTagName 0 1]).2.2 0 (by decide)⟩

/-! ## Tail lifecycle: frozen outside the closing event -/

theorem tail_frozen_step (hs : HandlerState) (e : HEvent) (i : Nat)
    (hlt : i < hs.store.size) (hni : i ∉ hs.ancestry) :
    ((Handler.hstep hs e).store.nodes i).tail = (hs.store.nodes i).tail
  ∧ i < (Handler.hstep hs e).store.size
  ∧ i ∉ (Handler.hstep hs e).ancestry := by
  obtain hanc | ⟨p, rest, hanc⟩ :
      hs.ancestry = [] ∨ ∃ p rest, hs.ancestry = p :: rest := by
    cases hs.ancestry with
    | nil => exact Or.inl rfl
    | cons a b => exact Or.inr ⟨a, b, rfl⟩
  · rw [hstep_nil hs e hanc]
    exact ⟨rfl, hlt, hni⟩
  · have hcreated : ∀ nd : DNode, ∀ push : Bool,
        ((createdState hs nd push p).store.nodes i).tail
            = (hs.store.nodes i).tail
      ∧ i < (createdState hs nd push p).store.size
      ∧ i ∉ (createdState hs nd push p).ancestry := by
      intro nd push
      refine ⟨?_, ?_, ?_⟩
      · rw [createdState_tail, if_neg (by omega)]
      · rw [createdState_size]
        omega
      · show i ∉ (if push then hs.store.size :: hs.ancestry else hs.ancestry)
        cases push with
        | false => exact hni
        | true =>
          intro hmem
          rcases List.mem_cons.mp hmem with h1 | h1
          · omega
          · exact hni h1
    cases e with
    | startTag name attrs sc =>
      rw [hstep_startTag_eq hs name attrs sc p rest hanc]
      exact hcreated _ _
    | endTag b =>
      rw [hstep_endTag_eq hs b p rest hanc]
      have hip : i ≠ p := fun hip => hni (hip ▸ hanc ▸ List.mem_cons_self p rest)
      refine ⟨?_, ?_, ?_⟩
      · rw [setN_tail_update_tail, if_neg hip]
      · rw [Store.size_setN]
        exact hlt
      · show i ∉ rest
        intro hmem
        exact hni (hanc ▸ List.mem_cons_of_mem p hmem)
    | text v =>
      rw [hstep_text_eq hs v p rest hanc]
      exact hcreated _ _
    | comment v =>
      rw [hstep_comment_eq hs v p rest hanc]
      exact hcreated _ _
    | cdata v =>
      rw [hstep_cdata_eq hs v p rest hanc]
      exact hcreated _ _
    | declaration v =>
      rw [hstep_declaration_eq hs v p rest hanc]
      exact hcreated _ _
    | directive v =>
      rw [hstep_directive_eq hs v p rest hanc]
      exact hcreated _ _

theorem tail_frozen_fold (evs : List HEvent) : ∀ (hs : HandlerState) (i : Nat),
    i < hs.store.size → i ∉ hs.ancestry →
    ((Handler.runFrom hs evs).store.nodes i).tail = (hs.store.nodes i).tail := by
  induction evs with
  | nil => intro hs i _ _; rfl
  | cons e rest ih =>
    intro hs i hlt hni
    obtain ⟨h1, h2, h3⟩ := tail_frozen_step hs e i hlt hni
    rw [runFrom_cons, ih _ i h2 h3, h1]

/-! ## Locating a node inside the finished forest -/

mutual

theorem subtree_locate (st : Store) : ∀ (τ : RoseT) (i : Nat),
    subtreeOK st τ → i ∈ flatT τ →
    ∃ κ : RoseT, subtreeOK st κ ∧ RoseT.root κ = i
      ∧ (flatT κ).length ≤ (flatT τ).length
  | .node r ks, i, hok, hmem => by
    rw [flatT] at hmem
    rcases List.mem_cons.mp hmem with h1 | h1
    · exact ⟨.node r ks, hok, by rw [RoseT.root, h1], le_refl _⟩
    · rw [subtreeOK] at hok
      obtain ⟨κ, hκ, hr, hle⟩ := forest_locate st ks i hok.2.2 h1
      exact ⟨κ, hκ, hr,
        le_trans hle (by rw [flatT, List.length_cons]; omega)⟩

theorem forest_locate (st : Store) : ∀ (ks : List RoseT) (i : Nat),
    forestOK st ks → i ∈ flatF ks →
    ∃ κ : RoseT, subtreeOK st κ ∧ RoseT.root κ = i
      ∧ (flatT κ).length ≤ (flatF ks).length
  | [], i, _, hmem => by
    rw [flatF] at hmem
    exact absurd hmem (List.not_mem_nil i)
  | τ :: ts, i, hok, hmem => by
    rw [forestOK] at hok
    rw [flatF] at hmem
    rcases List.mem_append.mp hmem with h1 | h1
    · obtain ⟨κ, hκ, hr, hle⟩ := subtree_locate st τ i hok.1 h1
      exact ⟨κ, hκ, hr,
        le_trans hle (by rw [flatF, List.length_append]; omega)⟩
    · obtain ⟨κ, hκ, hr, hle⟩ := forest_locate st ts i hok.2 h1
      exact ⟨κ, hκ, hr,
        le_trans hle (by rw [flatF, List.length_append]; omega)⟩

end

/-! ## Claim C3 -/

/-- C3 (amended): a Tag's tail is written exactly once, by its own closing
event: (1) after any prefix of the semantic trace, every tag still open -
on the ancestry - has an unset tail; (2) the closing event pops the top
tag and writes exactly that node's tail, to the close of its last child's
subtree (unset when childless); (3) once a node is allocated and off the
ancestry its tail never changes again; (4) in the finished tree every
non-root node's tail is the last entry of the depth-first flattening of
its own subtree when it has children, and unset - not the tag itself -
when it is childless. -/
theorem C3_tail_on_close :
    (∀ (dec : String → Option String) (buffer : List Char)
       (pevs : List PEvent) (pre post : List HEvent),
       (Parser.onEnd (Parser.run dec buffer pevs)).events = pre ++ post →
       ∀ i ∈ (Handler.run pre).ancestry,
         ((Handler.run pre).store.nodes i).tail = none)
  ∧ (∀ (hs : HandlerState) (b : Bool) (t : Nat) (tl : List Nat),
       hs.ancestry = t :: tl →
       Handler.hstep hs (HEvent.endTag b)
         = { hs with
             store := hs.store.setN t
               { hs.store.nodes t with tail := tailCompute hs t },
             ancestry := tl })
  ∧ (∀ (evs : List HEvent) (hs : HandlerState) (i : Nat),
       i < hs.store.size → i ∉ hs.ancestry →
       ((Handler.runFrom hs evs).store.nodes i).tail
         = (hs.store.nodes i).tail)
  ∧ (∀ (dec : String → Option String) (buffer : List Char)
       (pevs : List PEvent) (i : Nat), 0 < i →
       i < (Handler.run
             (Parser.onEnd (Parser.run dec buffer pevs)).events).store.size →
       ((Handler.run
           (Parser.onEnd (Parser.run dec buffer pevs)).events).store.nodes i).tail
         = if ((Handler.run (Parser.onEnd
                 (Parser.run dec buffer pevs)).events).store.nodes i).children = []
           then none
           else (preorderAux
                  (Handler.run
                    (Parser.onEnd (Parser.run dec buffer pevs)).events).store
                  (Handler.run
                    (Parser.onEnd
                      (Parser.run dec buffer pevs)).events).store.size
                  i).getLast?) := by
  refine ⟨?_, ?_, ?_, ?_⟩
  · intro dec buffer pevs pre post hsplit i hi
    have hbal := parser_trace_balanced dec buffer pevs
    rw [hsplit, wfRun_append] at hbal
    obtain ⟨o, ho⟩ : ∃ o, wfRun 0 pre = some o := by
      cases hpre : wfRun 0 pre with
      | none => rw [hpre] at hbal; exact Option.noConfusion hbal
      | some o => exact ⟨o, rfl⟩
    obtain ⟨z, hinv, -⟩ := hinv_fold pre 0 o ho Handler.init [(0, [])] hinv_init rfl
    have hancz := hinv.anc
    exact spine_fst_tail_none _ z hinv.sp i (by rw [← hancz]; exact hi)
  · exact fun hs b t tl hanc => hstep_endTag_eq hs b t tl hanc
  · exact fun evs hs i h1 h2 => tail_frozen_fold evs hs i h1 h2
  · intro dec buffer pevs i hpos hlt
    obtain ⟨ks, hinv⟩ := final_zipper dec buffer pevs
    generalize hG : Handler.run (Parser.onEnd (Parser.run dec buffer pevs)).events
        = H at hinv hlt ⊢
    obtain ⟨hanc, hsp, hflat, hprev, hnextc, hnextl⟩ := hinv
    rw [spineOK] at hsp
    obtain ⟨hentry, -⟩ := hsp
    rw [spineEntryOK] at hentry
    obtain ⟨-, -, hfok⟩ := hentry
    have hflat2 : (0 : Nat) :: flatF ks = List.range H.store.size := by
      have h0 := hflat
      rw [flatZ, flatZ, List.nil_append] at h0
      exact h0
    have hsz : H.store.size = (flatF ks).length + 1 := by
      have hlen := congrArg List.length hflat2
      rw [List.length_cons, List.length_range] at hlen
      omega
    have hmem : i ∈ flatF ks := by
      have hm0 : i ∈ (0 : Nat) :: flatF ks := by
        rw [hflat2]
        exact List.mem_range.mpr hlt
      rcases List.mem_cons.mp hm0 with h1 | h1
      · omega
      · exact h1
    obtain ⟨κ, hκ, hr, hle⟩ := forest_locate H.store ks i hfok hmem
    obtain ⟨r, kids⟩ := κ
    rw [RoseT.root] at hr
    subst hr
    rw [subtreeOK] at hκ
    obtain ⟨hci, hti, hfki⟩ := hκ
    by_cases hnil : kids = []
    · subst hnil
      have hc0 : (H.store.nodes r).children = [] := by rw [hci]; rfl
      rw [if_pos hc0, hti]
      rfl
    · have hc1 : (H.store.nodes r).children ≠ [] := by
        rw [hci]
        cases kids with
        | nil => exact absurd rfl hnil
        | cons a b => simp
      rw [if_neg hc1]
      have hpre := preorder_subtree H.store (.node r kids) H.store.size
        ⟨hci, hti, hfki⟩
        (by rw [hsz]; exact le_trans hle (Nat.le_succ _))
      rw [show preorderAux H.store H.store.size r = flatT (.node r kids) from hpre,
          flatT, hti]
      exact (getLast?_cons_of_ne_nil r (flatF kids) (flatF_ne_nil kids hnil)).symm

theorem C3_tail_on_close_witness :
    0 < 1
  ∧ 1 < (Handler.run (Parser.onEnd (Parser.run dec0 "bx".data
        [PEvent.startTagName 0 1, PEvent.startTagClose, PEvent.text 1 2,
         PEvent.textEnd, PEvent.endTagName 0 1])).events).store.size
  ∧ ((Handler.run (Parser.onEnd (Parser.run dec0 "bx".data
        [PEvent.startTagName 0 1, PEvent.startTagClose, PEvent.text 1 2,
         PEvent.textEnd, PEvent.endTagName 0 1])).events).store.nodes 1).tail
      = some 2 :=
  ⟨by decide, by decide,
   (C3_tail_on_close.2.2.2 dec0 "bx".data
      [PEvent.startTagName 0 1, PEvent.startTagClose, PEvent.text 1 2,
       PEvent.textEnd, PEvent.endTagName 0 1] 1 (by decide) (by decide)).trans
     (by decide)⟩

theorem C2_void_classification_witness :
    "div" ∈ (Parser.run dec0 "div".data
        [PEvent.startTagName 0 3, PEvent.startTagClose]).stack
  ∧ emptyElements.contains "div" = false :=
  ⟨by decide,
   C2_void_classification.2.1 dec0 "div".data
     [PEvent.startTagName 0 3, PEvent.startTagClose] "div" (by decide)⟩
